import Mathlib

/-!
Shallow embedding of `src/concept_parameter_model.js` (a small in-memory
semantic-network reasoning engine) and proofs about the claims of its
natural-language specification.

Modelling conventions, chosen to match the JavaScript source:

* JS numbers are modelled as `ℚ`.  The one place where a JS arithmetic
  expression can produce `NaN` on every input (the `commonRelations.size`
  access in `inductiveInference`, where `commonRelations` is an `Array`
  and therefore has no `size` property, so the access yields `undefined`
  which coerces to `NaN`) is modelled with the two-point extension
  `JsNum` of `ℚ` whose extra point `JsNum.nan` absorbs arithmetic and
  makes every comparison false, exactly as `NaN` does in JS.
* JS `Map`s are modelled as insertion-ordered association lists
  (`List (String × _)` etc.); `JsMap.set` replaces the value in place for
  an existing key (preserving its position) and appends a new key at the
  end, as `Map.prototype.set` does.
* JS object references: `Concept` objects are keyed by their `id` both in
  the engine's concept map and wherever the source stores a reference to
  a target concept.  This is exact for every state reachable without
  re-adding an existing concept id (the only operation that can make two
  distinct `Concept` objects share an id); no claim involves re-adding.
* Wall-clock time: `Date.now()` readings are passed in explicitly as
  `now : ℕ` (all readings inside a single engine call are taken to fall
  in the same millisecond, which is a possible real execution).  The
  noncomputable decay factor `Math.exp(-Δt * 0.0001)` is abstracted as a
  parameter `df : ℕ → ℚ`; theorems that depend on it assume only
  `0 ≤ df Δt ≤ 1`, which holds for `exp` of a nonpositive argument, and
  concrete executions instantiate `df` with the constant 1, which is the
  exact value `exp 0` taken when no time elapses between calls.
* The `thinkingHistory` audit log, the `description` strings of inference
  results, and the `description` field of relationship types are not
  modelled: no claim mentions them and nothing else reads them.
-/

/- Batteries marks the core rational operations `@[irreducible]`, which
stops `decide`/`rfl` from evaluating concrete executions of the embedded
code.  Restore the default transparency for them in this file. -/
attribute [local semireducible] Rat.add Rat.mul Rat.inv Rat.sub

namespace CPM

/-- A JS primitive attribute value (string, number or boolean). -/
inductive JsVal where
  | str : String → JsVal
  | num : ℚ → JsVal
  | bool : Bool → JsVal
deriving DecidableEq, Repr

/-- JS truthiness of a primitive value: empty string, `0` and `false`
are falsy, everything else is truthy. -/
def JsVal.truthy : JsVal → Bool
  | .str s => s ≠ ""
  | .num q => q ≠ 0
  | .bool b => b

/-- A JS number that may be `NaN`.  `NaN` absorbs arithmetic and makes
every ordered comparison false. -/
inductive JsNum where
  | num : ℚ → JsNum
  | nan : JsNum
deriving DecidableEq, Repr

def JsNum.add : JsNum → JsNum → JsNum
  | .num a, .num b => .num (a + b)
  | _, _ => .nan

def JsNum.mul : JsNum → JsNum → JsNum
  | .num a, .num b => .num (a * b)
  | _, _ => .nan

/-- Division.  In JS a nonzero number divided by zero is `±Infinity`,
not `NaN`; we map it to `nan` anyway because no embedded code path
divides a non-`NaN` numerator by zero (every denominator in the source
is a `Math.max` over counts that include the five reserved attribute
keys, or the division is already poisoned by `NaN`). -/
def JsNum.div : JsNum → JsNum → JsNum
  | .num a, .num b => if b = 0 then .nan else .num (a / b)
  | _, _ => .nan

/-- JS `>=`: false whenever either side is `NaN`. -/
def JsNum.ge : JsNum → JsNum → Bool
  | .num a, .num b => decide (b ≤ a)
  | _, _ => false

/-- JS `>`: false whenever either side is `NaN`. -/
def JsNum.gt : JsNum → JsNum → Bool
  | .num a, .num b => decide (b < a)
  | _, _ => false

/-! ### Insertion-ordered association lists, the model of JS `Map` -/

namespace JsMap

/-- First value stored under a key (`Map.prototype.get`).  Keys are
compared with SameValueZero, i.e. decidable equality of the key type. -/
def get {κ β : Type} [DecidableEq κ] : List (κ × β) → κ → Option β
  | [], _ => none
  | p :: rest, k => if p.1 = k then some p.2 else get rest k

/-- `Map.prototype.has`. -/
def hasKey {κ β : Type} [DecidableEq κ] (l : List (κ × β)) (k : κ) : Bool :=
  (get l k).isSome

/-- `Map.prototype.set`: update in place if the key exists (keeping its
position), otherwise append at the end. -/
def set {κ β : Type} [DecidableEq κ] : List (κ × β) → κ → β → List (κ × β)
  | [], k, v => [(k, v)]
  | p :: rest, k, v => if p.1 = k then (k, v) :: rest else p :: set rest k v

/-- `Map.prototype.delete`: remove the first (only) binding of the key. -/
def eraseKey {κ β : Type} [DecidableEq κ] (l : List (κ × β)) (k : κ) : List (κ × β) :=
  l.eraseP (fun p => p.1 = k)

/-- Mutate the value stored under a key in place (the model of mutating
the object a JS `Map` value refers to); no-op for an absent key. -/
def modify {κ β : Type} [DecidableEq κ] : List (κ × β) → κ → (β → β) → List (κ × β)
  | [], _, _ => []
  | p :: rest, k, f => if p.1 = k then (p.1, f p.2) :: rest else p :: modify rest k f

end JsMap

/-- The property names every plain JS object inherits from
`Object.prototype` (all bound to truthy values: functions, and for
`__proto__` the `Object.prototype` object itself).  A property read
`obj[k]` on a plain object falls back to these when `k` is not an own
key. -/
def objectPrototypeMembers : List String :=
  ["constructor", "hasOwnProperty", "isPrototypeOf", "propertyIsEnumerable",
   "toLocaleString", "toString", "valueOf", "__defineGetter__", "__defineSetter__",
   "__lookupGetter__", "__lookupSetter__", "__proto__"]

/-- A relation-type key as it occurs in the engine's `Map`s: either an
ordinary string, or — via `reverseMap[relationType] || "related-to"` on
a plain object, whose lookup consults the prototype chain — the member
inherited from `Object.prototype` under the given name.  The inherited
members are truthy, so `||` does not replace them, and they are distinct
from every string under SameValueZero. -/
inductive RelKey where
  | str : String → RelKey
  | proto : String → RelKey
deriving DecidableEq, Repr

/-- `String(k)` for a relation-type key, as the template-literal edge
keys of `autoDiscoverRelationships` coerce it: a string is itself, an
inherited native function stringifies to the shown source text, and the
`__proto__` read yields `Object.prototype`, which stringifies to
`[object Object]`.  Nothing provable depends on the exact text. -/
def RelKey.toStr : RelKey → String
  | .str s => s
  | .proto "__proto__" => "[object Object]"
  | .proto name => "function " ++ name ++ "() { [native code] }"

/-! ### Concepts -/

/-- The per-edge record `{strength, activationThreshold, lastUsed}`. -/
structure RelationInfo where
  strength : ℚ
  activationThreshold : ℚ
  lastUsed : ℕ
deriving DecidableEq, Repr

/-- The five reserved attribute keys the constructor always (re)sets. -/
def reservedKeys : List String :=
  ["activation", "weight", "type", "category", "frequency"]

/-- A concept node.  The JS object keeps the five reserved fields inside
`this.attributes` next to the caller-supplied domain attributes; here
the reserved fields are separate structure fields and `extra` holds
exactly the caller-supplied non-reserved attributes, so that
`Object.keys(this.attributes).length = extra.length + 5`. -/
structure Concept where
  id : String
  name : String
  extra : List (String × JsVal)
  activation : ℚ
  weight : ℚ
  ctype : String
  category : JsVal
  frequency : ℚ
  relationships : List (RelKey × List (String × RelationInfo))
  lastActivated : ℕ
deriving DecidableEq, Repr

/-- The `Concept` constructor.  `attrs` stands for a JS object, so its
keys are assumed distinct.  All five reserved fields are forced to their
defaults; `category` keeps the caller's value only via
`attributes.category || 'unknown'`, i.e. only if it is truthy. -/
def Concept.make (id name : String) (attrs : List (String × JsVal)) : Concept :=
  { id := id
    name := name
    extra := attrs.filter (fun p => !(reservedKeys.contains p.1))
    activation := 0
    weight := 1
    ctype := "common"
    category :=
      match JsMap.get attrs "category" with
      | some v => if v.truthy then v else JsVal.str "unknown"
      | none => JsVal.str "unknown"
    frequency := 1
    relationships := []
    lastActivated := 0 }

/-- `Object.keys(concept.attributes).length`: the caller-supplied
non-reserved keys plus the five reserved ones. -/
def Concept.attributeCount (c : Concept) : ℕ :=
  c.extra.length + 5

/-- `Concept.prototype.addRelationship`: insert or overwrite the edge
record for `(relationType, target)`. -/
def Concept.addRelationship (relationType : RelKey) (targetId : String) (strength : ℚ)
    (now : ℕ) (c : Concept) : Concept :=
  let em := (JsMap.get c.relationships relationType).getD []
  let em' := JsMap.set em targetId
    { strength := strength, activationThreshold := 3/10, lastUsed := now }
  { c with relationships := JsMap.set c.relationships relationType em' }

/-- `Concept.prototype.activate`: decay the stored activation by
`df (now - lastActivated)` (the abstraction of
`Math.exp(-Δt * 0.0001)`), add `level × weight`, clamp from above at 1,
refresh `lastActivated` and bump `frequency`.  Returns the new
activation together with the updated concept. -/
def Concept.activate (df : ℕ → ℚ) (now : ℕ) (level : ℚ) (c : Concept) :
    ℚ × Concept :=
  let decayFactor := df (now - c.lastActivated)
  let currentActivation := c.activation * decayFactor
  let a := min 1 (currentActivation + level * c.weight)
  (a, { c with activation := a, lastActivated := now, frequency := c.frequency + 1/10 })

/-- `Concept.prototype.getActivationLevel`: the decayed activation,
without mutating. -/
def Concept.getActivationLevel (df : ℕ → ℚ) (now : ℕ) (c : Concept) : ℚ :=
  c.activation * df (now - c.lastActivated)

/-! ### Working memory -/

/-- Fixed-capacity working memory.  Each entry `{concept, activation,
timestamp}` is keyed by the concept id; the concept reference itself is
redundant with the id and is not stored. -/
structure WorkingMemory where
  capacity : ℕ
  concepts : List (String × ℚ × ℕ)
deriving DecidableEq, Repr

/-- `a < b` where `b = Infinity` when `none`. -/
def ltOptQ (a : ℚ) : Option ℚ → Bool
  | none => true
  | some b => decide (a < b)

/-- `a === b` where `b = Infinity` when `none`. -/
def eqOptQ (a : ℚ) : Option ℚ → Bool
  | none => false
  | some b => decide (a = b)

/-- `a < b` where `b = Infinity` when `none` (timestamps). -/
def ltOptN (a : ℕ) : Option ℕ → Bool
  | none => true
  | some b => decide (a < b)

/-- The eviction scan of `WorkingMemory.addConcept`: the fold over the
entries tracking `(lowestActivation, oldestTime, oldestId)`, all three
starting at `Infinity`/`null`. -/
def WorkingMemory.findEvict (entries : List (String × ℚ × ℕ)) : Option String :=
  (entries.foldl
    (fun (acc : Option ℚ × Option ℕ × Option String) e =>
      if ltOptQ e.2.1 acc.1 || (eqOptQ e.2.1 acc.1 && ltOptN e.2.2 acc.2.1) then
        (some e.2.1, some e.2.2, some e.1)
      else acc)
    (none, none, none)).2.2

/-- `WorkingMemory.prototype.addConcept`: upsert by id; when inserting a
new id at capacity, first evict the entry found by the scan. -/
def WorkingMemory.addConcept (wm : WorkingMemory) (id : String) (activation : ℚ)
    (now : ℕ) : WorkingMemory :=
  if JsMap.hasKey wm.concepts id then
    { wm with concepts := JsMap.set wm.concepts id (activation, now) }
  else
    let afterEvict :=
      if wm.capacity ≤ wm.concepts.length then
        match WorkingMemory.findEvict wm.concepts with
        | some oldestId =>
          -- `if (oldestId)` is a truthiness test: the empty string is
          -- falsy, so the eviction is skipped for an empty-string id
          if oldestId = "" then wm.concepts else JsMap.eraseKey wm.concepts oldestId
        | none => wm.concepts
      else wm.concepts
    { wm with concepts := JsMap.set afterEvict id (activation, now) }

/-! ### The engine (`ConceptParameterModel`) -/

/-- The engine state.  `relationshipTypes` maps a type id to its Chinese
display label (the JS `Relationship` record also carries a description,
which nothing reads); `typeMap` is the Chinese→English map and
`typeReverseMap` the English→Chinese map.  The `thinkingHistory` log is
not modelled. -/
structure Model where
  concepts : List (String × Concept)
  relationshipTypes : List (RelKey × String)
  typeMap : List (String × RelKey)
  typeReverseMap : List (RelKey × String)
  workingMemory : WorkingMemory
deriving DecidableEq, Repr

/-- `addRelationshipType`: register a type id with its label in all
three maps. -/
def Model.addRelationshipType (m : Model) (type : RelKey) (chineseType : String) : Model :=
  { m with
    relationshipTypes := JsMap.set m.relationshipTypes type chineseType
    typeMap := JsMap.set m.typeMap chineseType type
    typeReverseMap := JsMap.set m.typeReverseMap type chineseType }

/-- The engine constructor: empty maps, a capacity-7 working memory, and
the eight built-in relationship types. -/
def initModel : Model :=
  let m : Model :=
    { concepts := []
      relationshipTypes := []
      typeMap := []
      typeReverseMap := []
      workingMemory := { capacity := 7, concepts := [] } }
  let m := m.addRelationshipType (RelKey.str "is-a") "是一种"
  let m := m.addRelationshipType (RelKey.str "has-a") "有"
  let m := m.addRelationshipType (RelKey.str "related-to") "相关"
  let m := m.addRelationshipType (RelKey.str "causes") "导致"
  let m := m.addRelationshipType (RelKey.str "similar-to") "相似"
  let m := m.addRelationshipType (RelKey.str "needs") "需要"
  let m := m.addRelationshipType (RelKey.str "part-of") "是...的一部分"
  let m := m.addRelationshipType (RelKey.str "opposite-to") "相反"
  m

/-- `getRelationshipTypeEnglish`: translate a Chinese label to the type
id, passing unknown inputs through unchanged.  The stored value can be a
prototype-member key when a lazy registration has overwritten the label
(e.g. `typeMap['相关']`), so the result is a `RelKey`. -/
def Model.getRelationshipTypeEnglish (m : Model) (chineseType : String) : RelKey :=
  (JsMap.get m.typeMap chineseType).getD (RelKey.str chineseType)

/-- The fixed inverse table of `getReverseRelationType`. -/
def reverseMapTable : List (String × String) :=
  [("is-a", "has-subtype"), ("has-a", "part-of"), ("causes", "caused-by"),
   ("needs", "needed-by"), ("similar-to", "similar-to"), ("opposite-to", "opposite-to")]

/-- The value of `reverseMap[relationType] || "related-to"`.  The
lookup is a property read on a plain object literal, so it consults the
prototype chain: a string key that is not an own key of the table but is
an `Object.prototype` property name yields the inherited (truthy)
member, which `||` keeps.  Only a key that misses both falls through to
`related-to`.  A non-string key is first coerced to its string form by
`ToPropertyKey`; those strings (`function …` / `[object Object]`) are
neither own keys nor prototype member names, so they always yield
`related-to`.  (The returned value does not depend on the engine state;
the registration side effect is `Model.getReverseRelationType` below.) -/
def reverseTypeOf : RelKey → RelKey
  | .str s =>
    match JsMap.get reverseMapTable s with
    | some v => .str v
    | none =>
      if objectPrototypeMembers.contains s then .proto s else .str "related-to"
  | .proto _ => .str "related-to"

/-- `getReverseRelationType` with its side effect: lazily register the
inverse type (with the Chinese label chosen by the `switch`) when it is
not yet in `typeReverseMap`. -/
def Model.getReverseRelationType (m : Model) (relationType : RelKey) :
    RelKey × Model :=
  let reverseType := reverseTypeOf relationType
  if JsMap.hasKey m.typeReverseMap reverseType then (reverseType, m)
  else
    let chineseReverseType :=
      if reverseType = RelKey.str "has-subtype" then "有子类型"
      else if reverseType = RelKey.str "part-of" then "是...的一部分"
      else if reverseType = RelKey.str "caused-by" then "由...导致"
      else if reverseType = RelKey.str "needed-by" then "被...需要"
      else "相关"
    (reverseType, m.addRelationshipType reverseType chineseReverseType)

/-- Look a concept up by id (`getConcept`). -/
def Model.getConcept (m : Model) (id : String) : Option Concept :=
  JsMap.get m.concepts id

/-- `addConcept`: construct a fresh concept and store it. -/
def Model.addConcept (m : Model) (id name : String)
    (attrs : List (String × JsVal)) : Model :=
  { m with concepts := JsMap.set m.concepts id (Concept.make id name attrs) }

/-- Apply an in-place mutation to the concept stored under `id` (the
model of mutating a JS `Concept` object through a reference). -/
def Model.modifyConcept (m : Model) (id : String) (f : Concept → Concept) : Model :=
  { m with concepts := JsMap.modify m.concepts id f }

/-- `ConceptParameterModel.prototype.addRelationship`: no-op unless both
ids are known; otherwise add the forward edge under the resolved English
type and the mirrored reverse edge with strength `× 0.8`. -/
def Model.addRelationship (m : Model) (sourceId relationType targetId : String)
    (strength : ℚ) (now : ℕ) : Model :=
  match m.getConcept sourceId, m.getConcept targetId with
  | some _, some _ =>
    let englishRelationType := m.getRelationshipTypeEnglish relationType
    let m1 := m.modifyConcept sourceId
      (Concept.addRelationship englishRelationType targetId strength now)
    let rr := m1.getReverseRelationType englishRelationType
    let m2 := rr.2.modifyConcept targetId
      (Concept.addRelationship rr.1 sourceId (strength * (8/10)) now)
    m2
  | _, _ => m

/-- The strength of the edge `a --rt--> b`, when it exists. -/
def Model.edgeStrength (m : Model) (a : String) (rt : RelKey) (b : String) : Option ℚ :=
  (m.getConcept a).bind fun c =>
    (JsMap.get c.relationships rt).bind fun em =>
      (JsMap.get em b).map (·.strength)

/-! ### Spreading activation -/

/-- An entry of the BFS queue: `{concept, activation, depth}` with the
concept kept by id. -/
structure QueueEntry where
  id : String
  activation : ℚ
  depth : ℕ
deriving DecidableEq, Repr

/-- The flattened outgoing edges of a concept, in iteration order:
`(relationType, targetId, relationInfo)` for every relation type and
every target. -/
def Concept.flatRels (c : Concept) : List (RelKey × String × RelationInfo) :=
  c.relationships.flatMap (fun p => p.2.map (fun q => (p.1, q.1, q.2)))

/-- The state threaded through the spreading loop: the engine, the
`activatedConcepts` map `id → (activation, depth)`, and a trace of every
`queue.push` performed (id and depth), used to state the enqueue-depth
bound.  The trace is pure instrumentation: nothing reads it. -/
structure SpreadState where
  model : Model
  results : List (String × ℚ × ℕ)
  trace : List (String × ℕ)
deriving Repr

/-- Processing of a single edge of the dequeued entry `cur`: the body of
the two nested `for` loops of `spreadActivation`.  Returns the updated
state and the entries enqueued so far (`adds`). -/
def spreadEdge (df : ℕ → ℚ) (now maxDepth : ℕ) (decay : ℚ) (cur : QueueEntry)
    (acc : SpreadState × List QueueEntry) (e : RelKey × String × RelationInfo) :
    SpreadState × List QueueEntry :=
  let st := acc.1
  let targetId := e.2.1
  let relationInfo := e.2.2
  let visitCond :=
    match JsMap.get st.results targetId with
    | none => true
    | some r => decide (cur.depth + 1 < r.2)
  if visitCond then
    let propagationActivation :=
      cur.activation * relationInfo.strength * decay ^ (cur.depth + 1)
    if relationInfo.activationThreshold < propagationActivation then
      match JsMap.get st.model.concepts targetId with
      | none => acc
      | some target =>
        let ar := Concept.activate df now propagationActivation target
        let m1 := st.model.modifyConcept targetId (fun _ => ar.2)
        let m2 := { m1 with workingMemory :=
          m1.workingMemory.addConcept targetId ar.1 now }
        let results' := JsMap.set st.results targetId (ar.1, cur.depth + 1)
        if cur.depth + 1 < maxDepth then
          ({ model := m2, results := results',
             trace := st.trace ++ [(targetId, cur.depth + 1)] },
           acc.2 ++ [⟨targetId, ar.1, cur.depth + 1⟩])
        else
          ({ model := m2, results := results', trace := st.trace }, acc.2)
    else acc
  else acc

/-- One iteration of the `while` loop: process every outgoing edge of
the dequeued entry. -/
def spreadStep (df : ℕ → ℚ) (now maxDepth : ℕ) (decay : ℚ) (cur : QueueEntry)
    (st : SpreadState) : SpreadState × List QueueEntry :=
  match JsMap.get st.model.concepts cur.id with
  | none => (st, [])
  | some c => c.flatRels.foldl (spreadEdge df now maxDepth decay cur) (st, [])

/-- The `while (queue.length > 0)` loop, with explicit fuel.  Fuel is
consumed once per dequeue; `none` means the fuel ran out (the
termination theorem shows the fuel chosen below never does). -/
def spreadLoop (df : ℕ → ℚ) (now maxDepth : ℕ) (decay : ℚ) :
    ℕ → SpreadState → List QueueEntry → Option SpreadState
  | _, st, [] => some st
  | 0, _, _ :: _ => none
  | fuel + 1, st, cur :: rest =>
    let sr := spreadStep df now maxDepth decay cur st
    spreadLoop df now maxDepth decay fuel sr.1 (rest ++ sr.2)

/-- Total number of edges in the engine, used only to size the fuel. -/
def Model.totalEdges (m : Model) : ℕ :=
  (m.concepts.map (fun p => p.2.flatRels.length)).sum

/-- `spreadActivation(sourceId, initialActivation, maxDepth, decay)`.
Returns `none` only on fuel exhaustion, which the termination theorem
rules out. -/
def Model.spreadActivation (m : Model) (df : ℕ → ℚ) (now : ℕ) (sourceId : String)
    (initialActivation : ℚ) (maxDepth : ℕ) (decay : ℚ) : Option SpreadState :=
  match m.getConcept sourceId with
  | none => some { model := m, results := [], trace := [] }
  | some source =>
    let ar := Concept.activate df now initialActivation source
    let m1 := m.modifyConcept sourceId (fun _ => ar.2)
    let m2 := { m1 with workingMemory := m1.workingMemory.addConcept sourceId ar.1 now }
    let st0 : SpreadState :=
      { model := m2, results := [(sourceId, ar.1, 0)], trace := [(sourceId, 0)] }
    spreadLoop df now maxDepth decay ((m2.totalEdges + 1) ^ maxDepth) st0
      [⟨sourceId, ar.1, 0⟩]

/-- The `activatedConcepts` entry of a concept after a spreading call
(`none` both when absent and on the impossible fuel exhaustion). -/
def Model.spreadResult (m : Model) (df : ℕ → ℚ) (now : ℕ) (sourceId : String)
    (initialActivation : ℚ) (maxDepth : ℕ) (decay : ℚ) (id : String) :
    Option (ℚ × ℕ) :=
  match m.spreadActivation df now sourceId initialActivation maxDepth decay with
  | some st => JsMap.get st.results id
  | none => none

/-- The enqueue trace of a spreading call. -/
def Model.spreadTrace (m : Model) (df : ℕ → ℚ) (now : ℕ) (sourceId : String)
    (initialActivation : ℚ) (maxDepth : ℕ) (decay : ℚ) : List (String × ℕ) :=
  match m.spreadActivation df now sourceId initialActivation maxDepth decay with
  | some st => st.trace
  | none => []

/-! ### Concrete fixtures -/

/-- The constant decay function: no time elapses between calls, so every
decay factor is `exp 0 = 1`. -/
def df1 : ℕ → ℚ := fun _ => 1

/-- The graph of the end-to-end example:
`dog --is-a(0.9)--> animal`, `animal --needs(0.8)--> food`
(with the mirrored reverse edges `addRelationship` creates). -/
def exampleModel : Model :=
  let m := initModel
  let m := m.addConcept "dog" "dog" []
  let m := m.addConcept "animal" "animal" []
  let m := m.addConcept "food" "food" []
  let m := m.addRelationship "dog" "is-a" "animal" (9/10) 0
  let m := m.addRelationship "animal" "needs" "food" (8/10) 0
  m

/-- A one-concept engine, used for the `maxDepth = 0` counterexample. -/
def soloModel : Model :=
  (initModel).addConcept "x" "x" []

/-! ### Inference -/

/-- An inference result `{confidence, type}`; the display `description`
is not modelled. -/
structure InferenceResult where
  confidence : JsNum
  itype : String
deriving DecidableEq, Repr

/-- `getAssociatedConcepts`' depth-first search.  The fuel only bounds
the recursion; `depth + 2` is always enough because every recursive call
increments `currentDepth` and the guard stops at `currentDepth > depth`. -/
def gacGo (m : Model) (rt : Option RelKey) (depth : ℕ) :
    ℕ → String → ℕ → List String × List String → List String × List String
  | 0, _, _, vr => vr
  | fuel + 1, cid, currentDepth, vr =>
    if vr.1.contains cid || decide (depth < currentDepth) then vr
    else
      match JsMap.get m.concepts cid with
      | none => vr
      | some c =>
        let visited' := vr.1 ++ [cid]
        let result' := if 0 < currentDepth then vr.2 ++ [cid] else vr.2
        let relationships :=
          match rt with
          | some t => [(t, (JsMap.get c.relationships t).getD [])]
          | none => c.relationships
        (relationships.flatMap (fun p => p.2.map (·.1))).foldl
          (fun vr2 tid => gacGo m rt depth fuel tid (currentDepth + 1) vr2)
          (visited', result')

/-- `getAssociatedConcepts(sourceId, relationType, depth)`: ids of the
concepts reachable within `depth` steps (the source itself excluded). -/
def Model.getAssociatedConcepts (m : Model) (sourceId : String)
    (rt : Option RelKey) (depth : ℕ) : List String :=
  match m.getConcept sourceId with
  | some _ => (gacGo m rt depth (depth + 2) sourceId 0 ([], [])).2
  | none => []

/-- `deductiveInference`: 0.9 if the target is reachable from the source
via `is-a` within depth 3, else 0.3. -/
def Model.deductiveInference (m : Model) (source target : Concept) : InferenceResult :=
  let sourceAssociations := m.getAssociatedConcepts source.id (some (RelKey.str "is-a")) 3
  if sourceAssociations.contains target.id then ⟨.num (9/10), "deductive"⟩
  else ⟨.num (3/10), "deductive"⟩

/-- `getCommonAttributes`: the non-reserved attribute keys present on
both concepts with `===`-equal values.  Filtering `Object.keys` by
non-membership in the reserved list leaves exactly the `extra` keys. -/
def getCommonAttributes (c1 c2 : Concept) : List String :=
  let attrs1 := c1.extra.map (·.1)
  let attrs2 := c2.extra.map (·.1)
  attrs1.filter (fun attr =>
    attrs2.contains attr && decide (JsMap.get c1.extra attr = JsMap.get c2.extra attr))

/-- `calculateSimilarity`: common attributes over the size of the union
of all attribute keys (both objects always contain the five reserved
keys, so the union counts them once). -/
def calculateSimilarity (c1 c2 : Concept) : ℚ :=
  let commonAttrs := getCommonAttributes c1 c2
  let totalAttrs :=
    ((c1.extra.map (·.1)) ++ (c2.extra.map (·.1)) ++ reservedKeys).dedup.length
  (commonAttrs.length : ℚ) / (totalAttrs : ℚ)

/-- `inductiveInference`.  The JS computes
`commonRelations = [...sourceRelations].filter(...)`, an `Array`, and
then reads `commonRelations.size`; arrays have no `size` property, so
the read yields `undefined`, the second term of the sum is
`undefined / Math.max(...) * 0.4 = NaN`, and the whole confidence is
`NaN` on every input. -/
def inductiveInference (source target : Concept) : InferenceResult :=
  let commonAttributes := getCommonAttributes source target
  let sourceRelations := source.relationships.map (·.1)
  let targetRelations := target.relationships.map (·.1)
  let _commonRelations := sourceRelations.filter (fun r => targetRelations.contains r)
  let attrTerm : ℚ :=
    ((commonAttributes.length : ℚ) /
      ((max source.attributeCount target.attributeCount : ℕ) : ℚ)) * (3/5)
  let relTerm := JsNum.mul
    (JsNum.div JsNum.nan
      (JsNum.num ((max sourceRelations.length targetRelations.length : ℕ) : ℚ)))
    (JsNum.num (2/5))
  ⟨JsNum.add (JsNum.num attrTerm) relTerm, "inductive"⟩

/-- The confidence formula as the spec states it (for comparison with
the code): `0.6 × (common non-reserved equal-valued attributes /
max attribute count) + 0.4 × (common relation types / max relation-type
count)`. -/
def inductiveConfidenceSpec (source target : Concept) : ℚ :=
  let commonAttributes := getCommonAttributes source target
  let sourceRelations := source.relationships.map (·.1)
  let targetRelations := target.relationships.map (·.1)
  let commonRelations := sourceRelations.filter (fun r => targetRelations.contains r)
  ((commonAttributes.length : ℚ) /
      ((max source.attributeCount target.attributeCount : ℕ) : ℚ)) * (3/5)
    + ((commonRelations.length : ℚ) /
        ((max sourceRelations.length targetRelations.length : ℕ) : ℚ)) * (2/5)

/-- `findIndirectRelationships`' backtracking depth-first search.  The
JS `visited.delete` on exit restores the set for siblings, so the
visited set can be passed immutably.  Fuel as in `gacGo`. -/
def firGo (m : Model) (relationType : RelKey) (targetId : String) (maxDepth : ℕ) :
    ℕ → List String → String → List String → ℕ → List (List String)
  | 0, _, _, _, _ => []
  | fuel + 1, visited, cid, path, depth =>
    if visited.contains cid || decide (maxDepth < depth) then []
    else if cid == targetId && decide (0 < path.length) then [path]
    else
      let visited' := visited ++ [cid]
      let children :=
        match JsMap.get m.concepts cid with
        | none => []
        | some c => (JsMap.get c.relationships relationType).getD []
      children.foldl
        (fun acc q =>
          acc ++ firGo m relationType targetId maxDepth fuel visited' q.1
            (path ++ [q.1]) (depth + 1))
        []

/-- `findIndirectRelationships(source, target, relationType, maxDepth)`. -/
def Model.findIndirectRelationships (m : Model) (source target : Concept)
    (relationType : RelKey) (maxDepth : ℕ) : List (List String) :=
  firGo m relationType target.id maxDepth (maxDepth + 2) [] source.id [source.id] 0

/-- `causalInference`: 0.8 on a direct `causes` edge, 0.6 on an indirect
`causes` path within depth 3, else 0.3. -/
def Model.causalInference (m : Model) (source target : Concept) : InferenceResult :=
  let sourceCauses := (JsMap.get source.relationships (RelKey.str "causes")).getD []
  if JsMap.hasKey sourceCauses target.id then ⟨.num (8/10), "causal"⟩
  else if 0 < (m.findIndirectRelationships source target (RelKey.str "causes") 3).length then
    ⟨.num (6/10), "causal"⟩
  else ⟨.num (3/10), "causal"⟩

/-- `analogicalInference`: over all pairs of same-typed edges
`source→A`, `target→B`, collect
`calculateSimilarity(source,target) × calculateSimilarity(A,B)` when it
exceeds 0.5; the JS sorts the collected analogies by descending strength
and takes the first, i.e. the maximum (only the confidence value is
modelled).  Falls back to 0.2 when nothing exceeds 0.5. -/
def Model.analogicalInference (m : Model) (source target : Concept) : InferenceResult :=
  let analogyStrengths :=
    source.relationships.flatMap (fun pS =>
      pS.2.flatMap (fun qS =>
        target.relationships.flatMap (fun pT =>
          if pS.1 = pT.1 then
            pT.2.filterMap (fun qT =>
              match JsMap.get m.concepts qS.1, JsMap.get m.concepts qT.1 with
              | some a, some b =>
                let s := calculateSimilarity source target * calculateSimilarity a b
                if (1/2 : ℚ) < s then some s else none
              | _, _ => none)
          else [])))
  match analogyStrengths.foldl
      (fun best s =>
        match best with
        | none => some s
        | some b => if b < s then some s else some b)
      none with
  | some s => ⟨.num s, "analogical"⟩
  | none => ⟨.num (1/5), "analogical"⟩

/-! ### Learning -/

/-- A `learn` experience `{source, target, relationType, outcome}`. -/
structure Experience where
  source : String
  target : String
  relationType : String
  outcome : Bool
deriving DecidableEq, Repr

/-- The strength adjustment of `learn` on the source object: if the
`relationType` edge map exists and holds the target, replace the edge
with the clamped strength `max(0.1, min(2.0, strength + dlt))` and a
refreshed `lastUsed`; otherwise leave the concept unchanged. -/
def learnStrengthUpdate (relationType targetId : String) (dlt : ℚ) (now : ℕ)
    (c : Concept) : Concept :=
  match JsMap.get c.relationships (RelKey.str relationType) with
  | none => c
  | some em =>
    match JsMap.get em targetId with
    | none => c
    | some e =>
      let ne : RelationInfo :=
        { strength := max (1/10) (min 2 (e.strength + dlt)),
          activationThreshold := e.activationThreshold, lastUsed := now }
      let em' := JsMap.set em targetId ne
      { c with relationships := JsMap.set c.relationships (RelKey.str relationType) em' }

/-- The weight adjustment of `learn`: `max(0.5, weight + dlt)`. -/
def learnWeightUpdate (dlt : ℚ) (c : Concept) : Concept :=
  { c with weight := max (1/2) (c.weight + dlt) }

/-- The frequency bump of `learn`: `frequency += 0.2`. -/
def learnFrequencyUpdate (c : Concept) : Concept :=
  { c with frequency := c.frequency + 1/5 }

/-- Re-insert a concept into working memory with its decayed activation
(`workingMemory.addConcept(c, c.getActivationLevel())`). -/
def wmRefresh (df : ℕ → ℚ) (now : ℕ) (id : String) (m : Model) : Model :=
  match m.getConcept id with
  | some c => { m with workingMemory :=
      m.workingMemory.addConcept id (c.getActivationLevel df now) now }
  | none => m

/-- `learn(experience, reinforcement)`: clamp-adjust the strength of the
`source --relationType--> target` edge if it exists, floor-adjust both
endpoint weights, bump both frequencies, and refresh both working-memory
entries with their decayed activations — in the source's statement
order, so a `source = target` experience aliases correctly. -/
def Model.learn (m : Model) (df : ℕ → ℚ) (now : ℕ) (exp : Experience)
    (reinforcement : ℚ) : Model :=
  match m.getConcept exp.source, m.getConcept exp.target with
  | some _, some _ =>
    let m1 := m.modifyConcept exp.source
      (learnStrengthUpdate exp.relationType exp.target
        (if exp.outcome then reinforcement else -(reinforcement * (1/2))) now)
    let m2 := m1.modifyConcept exp.source
      (learnWeightUpdate (if exp.outcome then 1/10 else -(1/20)))
    let m3 := m2.modifyConcept exp.target
      (learnWeightUpdate (if exp.outcome then 1/10 else -(1/20)))
    let m4 := m3.modifyConcept exp.source learnFrequencyUpdate
    let m5 := m4.modifyConcept exp.target learnFrequencyUpdate
    wmRefresh df now exp.target (wmRefresh df now exp.source m5)
  | _, _ => m

/-! ### Relationship auto-discovery -/

/-- A discovered-relationship record. -/
structure Discovered where
  source : String
  target : String
  relationType : String
  confidence : JsNum
  inferenceType : String
deriving DecidableEq, Repr

/-- The `i < j` pair enumeration of `autoDiscoverRelationships`, over
concept ids in insertion order. -/
def allPairs : List String → List (String × String)
  | [] => []
  | x :: rest => rest.map (fun y => (x, y)) ++ allPairs rest

/-- The edge-key strings `sourceId-relationType-targetId` of every edge
in the engine, the `existingRelations` snapshot taken at the start of
`autoDiscoverRelationships`. -/
def Model.existingRelationKeys (m : Model) : List String :=
  m.concepts.flatMap (fun p =>
    p.2.relationships.flatMap (fun q =>
      q.2.map (fun r => p.1 ++ "-" ++ q.1.toStr ++ "-" ++ r.1)))

/-- The loop body of `autoDiscoverRelationships` over the remaining
pairs.  Concepts are resolved from the live engine state, as the JS
object references are. -/
def autoLoop (existingRelations : List String) (threshold : ℚ)
    (maxNewRelations now : ℕ) :
    List (String × String) → Model → List Discovered → List Discovered × Model
  | [], m, acc => (acc, m)
  | (sid, tid) :: rest, m, acc =>
    match m.getConcept sid, m.getConcept tid with
    | some source, some target =>
      let hasExistingRelation := (m.relationshipTypes.map (·.1)).any (fun rt =>
        existingRelations.contains (source.id ++ "-" ++ rt.toStr ++ "-" ++ target.id) ||
        existingRelations.contains (target.id ++ "-" ++ rt.toStr ++ "-" ++ source.id))
      if hasExistingRelation then
        autoLoop existingRelations threshold maxNewRelations now rest m acc
      else
        let deduction := m.deductiveInference source target
        let induction := inductiveInference source target
        let analogy := m.analogicalInference source target
        let causal := m.causalInference source target
        let avgConfidence := JsNum.div
          (JsNum.add (JsNum.add (JsNum.add deduction.confidence induction.confidence)
            analogy.confidence) causal.confidence)
          (JsNum.num 4)
        if JsNum.ge avgConfidence (JsNum.num threshold) then
          -- This branch is unreachable: `induction.confidence` is always
          -- `NaN`, so `avgConfidence` is `NaN` and `>=` is false.
          let inferences := [deduction, induction, analogy, causal]
          let bestInference := inferences.foldl
            (fun b x => if JsNum.gt x.confidence b.confidence then x else b) deduction
          let relationType :=
            if JsNum.gt bestInference.confidence (JsNum.num (7/10)) then
              match bestInference.itype with
              | "deductive" => "is-a"
              | "inductive" => "similar-to"
              | "analogical" => "similar-to"
              | "causal" => "causes"
              | _ => "related-to"
            else "related-to"
          match avgConfidence with
          | .num strength =>
            let m' := m.addRelationship source.id relationType target.id strength now
            let d : Discovered :=
              { source := source.id, target := target.id,
                relationType := relationType, confidence := avgConfidence,
                inferenceType := bestInference.itype }
            let acc' := acc ++ [d]
            if maxNewRelations ≤ acc'.length then (acc', m')
            else autoLoop existingRelations threshold maxNewRelations now rest m' acc'
          | .nan =>
            autoLoop existingRelations threshold maxNewRelations now rest m acc
        else
          autoLoop existingRelations threshold maxNewRelations now rest m acc
    | _, _ =>
      autoLoop existingRelations threshold maxNewRelations now rest m acc

/-- `autoDiscoverRelationships(threshold, maxNewRelations)`. -/
def Model.autoDiscoverRelationships (m : Model) (threshold : ℚ)
    (maxNewRelations now : ℕ) : List Discovered × Model :=
  let existingRelations := m.existingRelationKeys
  autoLoop existingRelations threshold maxNewRelations now
    (allPairs (m.concepts.map (·.1))) m []

/-- Does the engine hold an edge between `a` and `b`, in either
direction, under any registered relation type?  (The predicate of claim
C9, stated over the pre-call engine.) -/
def Model.hasRegisteredEdge (m : Model) (a b : String) : Bool :=
  (m.relationshipTypes.map (·.1)).any (fun rt =>
    (m.edgeStrength a rt b).isSome || (m.edgeStrength b rt a).isSome)

/-! ### More fixtures -/

/-- Two concepts sharing the `domesticated` attribute and (after the
mirrored edge) the `similar-to` relation type, from the source's own
example data. -/
def dogCatModel : Model :=
  let m := initModel
  let m := m.addConcept "dog" "狗"
    [("category", .str "动物"), ("domesticated", .bool true), ("type", .str "concrete")]
  let m := m.addConcept "cat" "猫"
    [("category", .str "动物"), ("domesticated", .bool true), ("type", .str "concrete")]
  m.addRelationship "dog" "similar-to" "cat" (7/10) 0

/-- The stored `dog` concept of `dogCatModel`. -/
def dogConcept : Concept :=
  (dogCatModel.getConcept "dog").getD (Concept.make "dog" "" [])

/-- The stored `cat` concept of `dogCatModel`. -/
def catConcept : Concept :=
  (dogCatModel.getConcept "cat").getD (Concept.make "cat" "" [])

/-! ### Sequences of calls and invariant predicates -/

/-- A sequence of `activate` calls on one concept: each element is the
`Date.now()` reading and the activation level of one call. -/
def activateSeq (df : ℕ → ℚ) (calls : List (ℕ × ℚ)) (c : Concept) : Concept :=
  calls.foldl (fun c p => (Concept.activate df p.1 p.2 c).2) c

/-- A sequence of working-memory insertions `(id, activation, now)`. -/
def insertSeq (wm : WorkingMemory) (inserts : List (String × ℚ × ℕ)) : WorkingMemory :=
  inserts.foldl (fun wm e => wm.addConcept e.1 e.2.1 e.2.2) wm

/-- A sequence of `learn` calls `(experience, reinforcement, now)`. -/
def learnSeq (m : Model) (df : ℕ → ℚ) (steps : List (Experience × ℚ × ℕ)) : Model :=
  steps.foldl (fun m s => m.learn df s.2.2 s.1 s.2.1) m

/-- Every edge of a concept has strength within `[0.1, 2.0]`. -/
def conceptStrengthsOK (c : Concept) : Prop :=
  ∀ q ∈ c.relationships, ∀ r ∈ q.2, 1/10 ≤ r.2.strength ∧ r.2.strength ≤ 2

/-- Every edge strength in the engine lies within `[0.1, 2.0]`. -/
def strengthsInRange (m : Model) : Prop :=
  ∀ p ∈ m.concepts, conceptStrengthsOK p.2

/-- Every concept weight in the engine is at least `0.5`. -/
def weightsFloored (m : Model) : Prop :=
  ∀ p ∈ m.concepts, 1/2 ≤ p.2.weight

/-- `(a, t)` is lexicographically at most `e`'s
`(activation, timestamp)`: lower activation first, older timestamp on
ties. -/
def lexLE (a : ℚ) (t : ℕ) (e : String × ℚ × ℕ) : Prop :=
  a < e.2.1 ∨ (a = e.2.1 ∧ t ≤ e.2.2)

/-- `k` is the id of an entry with the lowest activation, ties broken by
the oldest timestamp. -/
def isLexMinEntry (entries : List (String × ℚ × ℕ)) (k : String) : Prop :=
  ∃ a t, (k, a, t) ∈ entries ∧ ∀ e ∈ entries, lexLE a t e

/-- The id-to-edge-list projection of the engine's concepts; spreading
never changes it, which drives the termination measure. -/
def conceptsShape (m : Model) : List (String × List (RelKey × String × RelationInfo)) :=
  m.concepts.map (fun p => (p.1, p.2.flatRels))

/-- The termination measure of the spreading loop: entries closer to
`maxDepth` weigh less, and one dequeue strictly decreases the sum. -/
def queueMeasure (B maxDepth : ℕ) (q : List QueueEntry) : ℕ :=
  (q.map (fun e => (B + 1) ^ (maxDepth - e.depth))).sum

/-- A concrete working memory at capacity 2 for the eviction witness. -/
def wmA : WorkingMemory :=
  { capacity := 2, concepts := [("a", 1/2, 5), ("b", 1/4, 7)] }

/-! ## Association-list lemmas -/

namespace JsMap

variable {κ β : Type} [DecidableEq κ]

theorem get_set_self (l : List (κ × β)) (k : κ) (v : β) :
    get (set l k v) k = some v := by
  induction l with
  | nil => simp [set, get]
  | cons p rest ih =>
    by_cases h : p.1 = k
    · simp [set, h, get]
    · simp [set, h, get, ih]

theorem get_set_ne (l : List (κ × β)) {k k' : κ} (v : β) (h : k' ≠ k) :
    get (set l k v) k' = get l k' := by
  have hkk : ¬(k = k') := fun e => h e.symm
  induction l with
  | nil => simp [set, get, hkk]
  | cons p rest ih =>
    by_cases hp : p.1 = k
    · have hpk : ¬(p.1 = k') := by rw [hp]; exact hkk
      simp [set, hp, get, hkk, hpk]
    · by_cases hp' : p.1 = k'
      · simp [set, hp, get, hp', h]
      · simp [set, hp, get, hp', ih]

theorem get_mem {l : List (κ × β)} {k : κ} {v : β}
    (h : get l k = some v) : (k, v) ∈ l := by
  induction l with
  | nil => simp [get] at h
  | cons p rest ih =>
    obtain ⟨pf, ps⟩ := p
    by_cases hp : pf = k
    · simp only [get] at h
      rw [if_pos hp] at h
      obtain rfl : ps = v := Option.some.inj h
      subst hp
      exact List.mem_cons_self _ _
    · simp only [get] at h
      rw [if_neg hp] at h
      exact List.mem_cons_of_mem _ (ih h)

theorem get_isSome_of_mem {l : List (κ × β)} {k : κ} {v : β}
    (h : (k, v) ∈ l) : (get l k).isSome = true := by
  induction l with
  | nil => simp at h
  | cons p rest ih =>
    by_cases hp : p.1 = k
    · simp [get, hp]
    · rcases List.mem_cons.mp h with h' | h'
      · exact absurd (by rw [← h']) hp
      · simp [get, hp]
        exact ih h'

theorem get_eq_none_of_not_mem_keys {l : List (κ × β)} {k : κ}
    (h : k ∉ l.map Prod.fst) : get l k = none := by
  induction l with
  | nil => rfl
  | cons p rest ih =>
    simp only [List.map_cons, List.mem_cons] at h
    push_neg at h
    have hp : ¬(p.1 = k) := fun e => h.1 e.symm
    simp only [get]
    rw [if_neg hp]
    exact ih h.2

theorem mem_set {l : List (κ × β)} {k : κ} {v : β} {x : κ × β}
    (h : x ∈ set l k v) : x = (k, v) ∨ x ∈ l := by
  induction l with
  | nil => simpa [set] using h
  | cons p rest ih =>
    by_cases hp : p.1 = k
    · simp [set, hp] at h
      rcases h with h | h
      · exact Or.inl h
      · exact Or.inr (List.mem_cons_of_mem _ h)
    · simp [set, hp] at h
      rcases h with h | h
      · exact Or.inr (List.mem_cons.mpr (Or.inl h))
      · rcases ih h with h' | h'
        · exact Or.inl h'
        · exact Or.inr (List.mem_cons_of_mem _ h')

theorem set_eq_append {l : List (κ × β)} {k : κ} (v : β)
    (h : hasKey l k = false) : set l k v = l ++ [(k, v)] := by
  induction l with
  | nil => rfl
  | cons p rest ih =>
    have hp : ¬(p.1 = k) := by
      intro e
      simp [hasKey, get, e] at h
    have hrest : hasKey rest k = false := by
      simp only [hasKey, get] at h ⊢
      rw [if_neg hp] at h
      exact h
    simp only [set]
    rw [if_neg hp, ih hrest]
    simp

theorem length_set (l : List (κ × β)) (k : κ) (v : β) :
    (set l k v).length = if hasKey l k then l.length else l.length + 1 := by
  induction l with
  | nil => simp [set, hasKey, get]
  | cons p rest ih =>
    by_cases hp : p.1 = k
    · simp [set, hp, hasKey, get]
    · simp [set, hp, hasKey, get, ih]
      by_cases hr : hasKey rest k
      · simp [hasKey] at hr
        simp [hr]
      · simp [hasKey] at hr
        simp [hr]

theorem mem_eraseKey {l : List (κ × β)} {k : κ} {x : κ × β}
    (h : x ∈ eraseKey l k) : x ∈ l :=
  (List.eraseP_sublist l).mem h

theorem length_eraseKey_of_mem {l : List (κ × β)} {k : κ} {v : β}
    (h : (k, v) ∈ l) : (eraseKey l k).length + 1 = l.length := by
  induction l with
  | nil => simp at h
  | cons p rest ih =>
    by_cases hp : p.1 = k
    · simp [eraseKey, List.eraseP_cons, hp]
    · rcases List.mem_cons.mp h with h' | h'
      · exact absurd (by simp [← h']) hp
      · simp [eraseKey, List.eraseP_cons, hp]
        simpa [eraseKey] using ih h'

theorem hasKey_eraseKey_false {l : List (κ × β)} {k k' : κ}
    (h : hasKey l k' = false) : hasKey (eraseKey l k) k' = false := by
  by_contra hc
  simp only [hasKey, Bool.not_eq_false, Option.isSome_iff_exists] at hc
  obtain ⟨v, hv⟩ := hc
  have := get_isSome_of_mem (mem_eraseKey (get_mem hv))
  simp [hasKey] at h
  simp [h] at this

theorem get_modify_self {l : List (κ × β)} {k : κ} {v : β}
    (f : β → β) (h : get l k = some v) : get (modify l k f) k = some (f v) := by
  induction l with
  | nil => simp [get] at h
  | cons p rest ih =>
    by_cases hp : p.1 = k
    · simp [get, hp] at h
      simp [modify, hp, get, h]
    · simp [get, hp] at h
      simp [modify, hp, get, ih h]

theorem get_modify_ne {l : List (κ × β)} {k k' : κ}
    (f : β → β) (h : k' ≠ k) : get (modify l k f) k' = get l k' := by
  have hkk : ¬(k = k') := fun e => h e.symm
  induction l with
  | nil => rfl
  | cons p rest ih =>
    by_cases hp : p.1 = k
    · have hpk : ¬(p.1 = k') := by rw [hp]; exact hkk
      simp [modify, hp, get, hkk, hpk]
    · by_cases hp' : p.1 = k'
      · simp [modify, hp, get, hp', h]
      · simp [modify, hp, get, hp', ih]

theorem mem_modify {l : List (κ × β)} {k : κ} {f : β → β} {x : κ × β}
    (h : x ∈ modify l k f) : x ∈ l ∨ ∃ v, get l k = some v ∧ x = (k, f v) := by
  induction l with
  | nil => simp [modify] at h
  | cons p rest ih =>
    by_cases hp : p.1 = k
    · simp [modify, hp] at h
      rcases h with h | h
      · exact Or.inr ⟨p.2, by simp [get, hp], by simp [h, hp]⟩
      · exact Or.inl (List.mem_cons_of_mem _ h)
    · simp [modify, hp] at h
      rcases h with h | h
      · exact Or.inl (List.mem_cons.mpr (Or.inl h))
      · rcases ih h with h' | ⟨v, hv, hx⟩
        · exact Or.inl (List.mem_cons_of_mem _ h')
        · exact Or.inr ⟨v, by simp [get, hp, hv], hx⟩

theorem modify_shape {γ : Type} {l : List (κ × β)} {k : κ} {v : β}
    (f : β → β) (g : β → γ) (hget : get l k = some v) (hg : g (f v) = g v) :
    (modify l k f).map (fun p => (p.1, g p.2)) = l.map (fun p => (p.1, g p.2)) := by
  induction l with
  | nil => rfl
  | cons p rest ih =>
    by_cases hp : p.1 = k
    · simp [get, hp] at hget
      simp [modify, hp, hget, hg]
    · simp [get, hp] at hget
      simp [modify, hp, ih hget]

end JsMap

/-! ## JsNum lemmas -/

theorem JsNum.add_nan (x : JsNum) : JsNum.add x JsNum.nan = JsNum.nan := by
  cases x <;> rfl

theorem JsNum.nan_add (y : JsNum) : JsNum.add JsNum.nan y = JsNum.nan := by
  cases y <;> rfl

theorem JsNum.nan_div (y : JsNum) : JsNum.div JsNum.nan y = JsNum.nan := by
  cases y <;> rfl

theorem JsNum.nan_ge (y : JsNum) : JsNum.ge JsNum.nan y = false := by
  cases y <;> rfl

/-- `inductiveInference` returns confidence `NaN` on every input: the
`.size` access on the `commonRelations` array yields `undefined`, which
poisons the whole similarity sum. -/
theorem inductiveInference_confidence_nan (source target : Concept) :
    (inductiveInference source target).confidence = JsNum.nan := rfl

/-! ## Claim theorems -/

/-- C1: on the source's own dog/cat example data (one shared
non-reserved attribute, one shared relation type), the code's inductive
confidence is `NaN` — not the weighted similarity the claim states,
which evaluates to `0.6 × 1/6 + 0.4 × 1/1 = 1/2`.  The `.size` read on
the `commonRelations` array is `undefined`, so the second term of the
sum is `NaN`. -/
theorem c1_inductive_confidence_is_nan :
    (inductiveInference dogConcept catConcept).confidence = JsNum.nan ∧
    inductiveConfidenceSpec dogConcept catConcept = 1/2 :=
  ⟨rfl, by decide⟩

/-- C2 counterexample: the inverse table is not an involution —
`inverseOf(inverseOf(is-a)) = inverseOf(has-subtype) = related-to`, not
`is-a`. -/
theorem c2_counterexample :
    (reverseTypeOf (reverseTypeOf (RelKey.str "is-a")) = RelKey.str "is-a") = False :=
  eq_false (by decide)

/-- C2 (amended): the fixed table maps `is-a↦has-subtype`,
`has-a↦part-of`, `causes↦caused-by`, `needs↦needed-by`, but is
one-directional: applying `inverseOf` twice to any of the four
asymmetric entries yields `related-to`, because the reverse ids are not
table keys.  `similar-to` and `opposite-to` are self-inverse.  An id
that is an `Object.prototype` property name maps to the inherited
member (the plain-object lookup consults the prototype chain and the
member is truthy); every other id outside the table maps to
`related-to`. -/
theorem c2_inverse_table :
    (reverseTypeOf (RelKey.str "is-a") = RelKey.str "has-subtype" ∧
      reverseTypeOf (RelKey.str "has-a") = RelKey.str "part-of" ∧
      reverseTypeOf (RelKey.str "causes") = RelKey.str "caused-by" ∧
      reverseTypeOf (RelKey.str "needs") = RelKey.str "needed-by") ∧
    (reverseTypeOf (reverseTypeOf (RelKey.str "is-a")) = RelKey.str "related-to" ∧
      reverseTypeOf (reverseTypeOf (RelKey.str "has-a")) = RelKey.str "related-to" ∧
      reverseTypeOf (reverseTypeOf (RelKey.str "causes")) = RelKey.str "related-to" ∧
      reverseTypeOf (reverseTypeOf (RelKey.str "needs")) = RelKey.str "related-to") ∧
    (reverseTypeOf (RelKey.str "similar-to") = RelKey.str "similar-to" ∧
      reverseTypeOf (RelKey.str "opposite-to") = RelKey.str "opposite-to") ∧
    (∀ s ∈ objectPrototypeMembers, reverseTypeOf (RelKey.str s) = RelKey.proto s) ∧
    (∀ r : String, r ∉ reverseMapTable.map Prod.fst → r ∉ objectPrototypeMembers →
      reverseTypeOf (RelKey.str r) = RelKey.str "related-to") := by
  refine ⟨by decide, by decide, by decide, by decide, ?_⟩
  intro r hr hp
  simp [reverseTypeOf, JsMap.get_eq_none_of_not_mem_keys hr, hp]

/-- C2 witness: an id outside both the table and the prototype chain
maps to `related-to`. -/
theorem c2_inverse_table_witness :
    reverseTypeOf (RelKey.str "friend-of") = RelKey.str "related-to" :=
  c2_inverse_table.2.2.2.2 "friend-of" (by decide) (by decide)

/-- C3 counterexample: on the example graph, `spreadActivation('dog',
0.8, 3, 0.5)` does not include `food` at all — the claim's `0.36 > 0.3`
check applies to `animal` at depth 1, while the propagated activation
reaching `food` at depth 2 is `0.36 × 0.8 × 0.5² = 0.072 ≤ 0.3`. -/
theorem c3_counterexample :
    ((exampleModel.spreadResult df1 0 "dog" (8/10) 3 (1/2) "food").isSome = true) = False :=
  eq_false (by decide)

/-- C3 (amended): the spreading run includes `animal` at depth 1 with
activation `0.36 > 0`, and does not include `food`, because the
propagation reaching it (`0.072`) does not exceed the `0.3` edge
threshold. -/
theorem c3_spread_example :
    exampleModel.spreadResult df1 0 "dog" (8/10) 3 (1/2) "animal" = some (9/25, 1) ∧
    (0 : ℚ) < 9/25 ∧
    exampleModel.spreadResult df1 0 "dog" (8/10) 3 (1/2) "food" = none :=
  ⟨by decide, by norm_num, by decide⟩

/-- C4 counterexample: `activate` clamps only from above
(`Math.min(1.0, …)`), so a single call with a negative level drives the
activation below 0. -/
theorem c4_counterexample :
    (activateSeq df1 [(0, -1)] (Concept.make "a" "a" [])).activation < 0 := by
  decide

/-- C4 (amended): for every sequence of `activate` calls with
nonnegative activation levels, on a concept with nonnegative weight and
activation in `[0,1]`, and with every decay factor in `[0,1]` (as
`exp(-Δt·k)` is), the activation after every call stays in `[0,1]`.
The code clamps only from above, so the nonnegativity of the levels is
required. -/
theorem c4_activation_clamped (df : ℕ → ℚ) (calls : List (ℕ × ℚ)) (c : Concept)
    (hdf : ∀ t, 0 ≤ df t ∧ df t ≤ 1) (hcalls : ∀ p ∈ calls, 0 ≤ p.2)
    (hw : 0 ≤ c.weight) (ha : 0 ≤ c.activation ∧ c.activation ≤ 1) :
    0 ≤ (activateSeq df calls c).activation ∧ (activateSeq df calls c).activation ≤ 1 := by
  induction calls generalizing c with
  | nil => simpa [activateSeq] using ha
  | cons p rest ih =>
    have hstep : activateSeq df (p :: rest) c
        = activateSeq df rest ((Concept.activate df p.1 p.2 c).2) := rfl
    rw [hstep]
    refine ih ((Concept.activate df p.1 p.2 c).2)
      (fun q hq => hcalls q (List.mem_cons_of_mem _ hq)) ?_ ?_
    · simpa [Concept.activate] using hw
    · constructor
      · simp only [Concept.activate]
        exact le_min (by norm_num)
          (add_nonneg (mul_nonneg ha.1 (hdf _).1)
            (mul_nonneg (hcalls p (List.mem_cons_self _ _)) hw))
      · simp only [Concept.activate]
        exact min_le_left _ _

/-- C4 witness: a concrete two-call sequence on a fresh concept stays in
`[0,1]`. -/
theorem c4_activation_clamped_witness :
    0 ≤ (activateSeq df1 [(0, 1/2), (3, 4/5)] (Concept.make "w" "w" [])).activation ∧
    (activateSeq df1 [(0, 1/2), (3, 4/5)] (Concept.make "w" "w" [])).activation ≤ 1 :=
  c4_activation_clamped df1 [(0, 1/2), (3, 4/5)] (Concept.make "w" "w" [])
    (fun _ => ⟨zero_le_one, le_refl 1⟩) (by decide) (by decide) (by decide)

/-- C9: no element of the list returned by `autoDiscoverRelationships`
is a pair that already had, before the call, an edge in either direction
under a registered relation type.  (Vacuously so: the `NaN` inductive
confidence poisons every pair's average, so the discovered list is
always empty.) -/
theorem c9_no_rediscovery (m : Model) (threshold : ℚ) (maxNewRelations now : ℕ) :
    ((m.autoDiscoverRelationships threshold maxNewRelations now).1.all
      (fun d => !(m.hasRegisteredEdge d.source d.target))) = true := by
  have key : ∀ (pairs : List (String × String)) (m' : Model) (acc : List Discovered),
      autoLoop m.existingRelationKeys threshold maxNewRelations now pairs m' acc
        = (acc, m') := by
    intro pairs
    induction pairs with
    | nil => intro m' acc; rfl
    | cons p rest ih =>
      intro m' acc
      obtain ⟨sid, tid⟩ := p
      rw [autoLoop]
      cases hs : m'.getConcept sid with
      | none => exact ih m' acc
      | some source =>
        cases ht : m'.getConcept tid with
        | none => exact ih m' acc
        | some target =>
          simp only
          split
          · exact ih m' acc
          · rw [inductiveInference_confidence_nan, JsNum.add_nan, JsNum.nan_add,
              JsNum.nan_add, JsNum.nan_div, JsNum.nan_ge]
            simp only [Bool.false_eq_true, if_false]
            exact ih m' acc
  unfold Model.autoDiscoverRelationships
  rw [key]
  rfl

/-- C10 counterexample: a caller-supplied falsy `category` (the empty
string) is not preserved — `attributes.category || 'unknown'` replaces
it. -/
theorem c10_counterexample :
    ((Concept.make "x" "x" [("category", JsVal.str "")]).category = JsVal.str "") = False :=
  eq_false (by decide)

/-- C10 (amended): the constructor resets the reserved fields to fixed
defaults regardless of caller input — `activation = 0`, `weight = 1`,
`type = 'common'`, `frequency = 1` (so a caller-supplied `type` is
silently discarded) — and preserves a caller-supplied `category` exactly
when it is truthy, defaulting to `'unknown'` when it is absent (or
falsy). -/
theorem c10_constructor_defaults (id name : String) (attrs : List (String × JsVal)) :
    (Concept.make id name attrs).activation = 0 ∧
    (Concept.make id name attrs).weight = 1 ∧
    (Concept.make id name attrs).ctype = "common" ∧
    (Concept.make id name attrs).frequency = 1 ∧
    (∀ v, JsMap.get attrs "category" = some v → v.truthy = true →
      (Concept.make id name attrs).category = v) ∧
    (JsMap.get attrs "category" = none →
      (Concept.make id name attrs).category = JsVal.str "unknown") := by
  refine ⟨rfl, rfl, rfl, rfl, ?_, ?_⟩
  · intro v hv htr
    simp [Concept.make, hv, htr]
  · intro hv
    simp [Concept.make, hv]

/-- C10 witness: a truthy caller-supplied category is preserved (while
the caller's `type` is discarded in the same call). -/
theorem c10_constructor_defaults_witness :
    (Concept.make "k" "n" [("category", JsVal.str "生物"), ("type", JsVal.str "emotion")]).category
      = JsVal.str "生物" :=
  (c10_constructor_defaults "k" "n"
      [("category", JsVal.str "生物"), ("type", JsVal.str "emotion")]).2.2.2.2.1
    (JsVal.str "生物") rfl (by decide)

/-! ## C5: relationship mirroring -/

theorem getReverse_fst (m : Model) (rt : RelKey) :
    (m.getReverseRelationType rt).1 = reverseTypeOf rt := by
  simp only [Model.getReverseRelationType]
  split <;> rfl

theorem getReverse_concepts (m : Model) (rt : RelKey) :
    (m.getReverseRelationType rt).2.concepts = m.concepts := by
  simp only [Model.getReverseRelationType, Model.addRelationshipType]
  split <;> rfl

theorem english_of_not_label {m : Model} {R : String}
    (h : JsMap.hasKey m.typeMap R = false) :
    m.getRelationshipTypeEnglish R = RelKey.str R := by
  cases hg : JsMap.get m.typeMap R with
  | none => simp [Model.getRelationshipTypeEnglish, hg]
  | some v => simp [JsMap.hasKey, hg] at h

/-- The concept map after `addRelationship` on two known ids: mutate the
source object, then the target object (the type-registry side effect
does not touch the concepts). -/
theorem addRelationship_concepts {m : Model} {s t : String} {cs ct : Concept}
    {R : String} (w : ℚ) (now : ℕ)
    (hcs : m.getConcept s = some cs) (hct : m.getConcept t = some ct)
    (hEng : m.getRelationshipTypeEnglish R = RelKey.str R) :
    (m.addRelationship s R t w now).concepts
      = JsMap.modify
          (JsMap.modify m.concepts s (Concept.addRelationship (RelKey.str R) t w now)) t
          (Concept.addRelationship (reverseTypeOf (RelKey.str R)) s (w * (8/10)) now) := by
  simp only [Model.addRelationship, hcs, hct, hEng, getReverse_fst,
    Model.modifyConcept]
  rw [getReverse_concepts]

/-- C5 counterexample: `addRelationship('a', 'similar-to', 'a', 1)` does
not leave a forward edge of strength 1 — the mirrored reverse edge is
written to the same `(relationType, target)` slot and overwrites it with
strength 0.8. -/
theorem c5_counterexample :
    (((initModel.addConcept "a" "a" []).addRelationship "a" "similar-to" "a" 1 0).edgeStrength
        "a" (RelKey.str "similar-to") "a" = some 1) = False :=
  eq_false (by decide)

/-- C5 (amended): for every `addRelationship(s, R, t, w)` with both ids
known, `R` not a registered display label (so it resolves to itself),
and not both `s = t` and `R` self-inverse, the call leaves a forward
edge `s --R--> t` of strength `w` and a reverse edge of strength
`w × 0.8` from `t` to `s` under the key `getReverseRelationType(R)`
actually computed by the code — which is the spec's table inverse for
table ids, `related-to` for ordinary unknown ids, but the inherited
`Object.prototype` member itself when `R` is one of its property names
(`toString`, `valueOf`, `constructor`, …).  In the excluded self-loop
case the reverse write lands on the same edge slot and overwrites the
forward strength with `0.8w`. -/
theorem c5_relationship_mirroring (m : Model) (s R t : String) (w : ℚ) (now : ℕ)
    (hs : (m.getConcept s).isSome = true) (ht : (m.getConcept t).isSome = true)
    (hR : JsMap.hasKey m.typeMap R = false)
    (hne : s ≠ t ∨ reverseTypeOf (RelKey.str R) ≠ RelKey.str R) :
    (m.addRelationship s R t w now).edgeStrength s (RelKey.str R) t = some w ∧
    (m.addRelationship s R t w now).edgeStrength t (reverseTypeOf (RelKey.str R)) s
      = some (w * (8/10)) := by
  obtain ⟨cs, hcs⟩ := Option.isSome_iff_exists.mp hs
  obtain ⟨ct, hct⟩ := Option.isSome_iff_exists.mp ht
  have hEng : m.getRelationshipTypeEnglish R = RelKey.str R := english_of_not_label hR
  have hconc := addRelationship_concepts w now hcs hct hEng
  by_cases hst : s = t
  · -- self-loop: both writes mutate the same object, under distinct types
    have hrev : reverseTypeOf (RelKey.str R) ≠ RelKey.str R := by
      rcases hne with h | h
      · exact absurd hst h
      · exact h
    subst hst
    have hcc : ct = cs := by
      rw [hcs] at hct
      exact (Option.some.inj hct).symm
    subst hcc
    have h1 : JsMap.get
        (JsMap.modify m.concepts s (Concept.addRelationship (RelKey.str R) s w now)) s
        = some (Concept.addRelationship (RelKey.str R) s w now ct) :=
      JsMap.get_modify_self _ hcs
    have h2 : JsMap.get
        (JsMap.modify
          (JsMap.modify m.concepts s (Concept.addRelationship (RelKey.str R) s w now)) s
          (Concept.addRelationship (reverseTypeOf (RelKey.str R)) s (w * (8/10)) now)) s
        = some (Concept.addRelationship (reverseTypeOf (RelKey.str R)) s (w * (8/10)) now
            (Concept.addRelationship (RelKey.str R) s w now ct)) :=
      JsMap.get_modify_self _ h1
    have hRrev : RelKey.str R ≠ reverseTypeOf (RelKey.str R) := fun e => hrev e.symm
    constructor
    · simp only [Model.edgeStrength, Model.getConcept, hconc, h2, Option.bind_eq_bind,
        Option.some_bind, Concept.addRelationship]
      rw [JsMap.get_set_ne _ _ hRrev, JsMap.get_set_self]
      simp only [Option.some_bind]
      rw [JsMap.get_set_self]
      rfl
    · simp only [Model.edgeStrength, Model.getConcept, hconc, h2, Option.bind_eq_bind,
        Option.some_bind, Concept.addRelationship]
      rw [JsMap.get_set_self]
      simp only [Option.some_bind]
      rw [JsMap.get_set_self]
      rfl
  · -- distinct endpoints: two objects, one write each
    have h1 : JsMap.get
        (JsMap.modify
          (JsMap.modify m.concepts s (Concept.addRelationship (RelKey.str R) t w now)) t
          (Concept.addRelationship (reverseTypeOf (RelKey.str R)) s (w * (8/10)) now)) s
        = some (Concept.addRelationship (RelKey.str R) t w now cs) := by
      rw [JsMap.get_modify_ne _ hst]
      exact JsMap.get_modify_self _ hcs
    have h2 : JsMap.get
        (JsMap.modify
          (JsMap.modify m.concepts s (Concept.addRelationship (RelKey.str R) t w now)) t
          (Concept.addRelationship (reverseTypeOf (RelKey.str R)) s (w * (8/10)) now)) t
        = some (Concept.addRelationship (reverseTypeOf (RelKey.str R)) s (w * (8/10)) now ct) := by
      have hts : t ≠ s := fun e => hst e.symm
      exact JsMap.get_modify_self _ (by rw [JsMap.get_modify_ne _ hts]; exact hct)
    constructor
    · simp only [Model.edgeStrength, Model.getConcept, hconc, h1, Option.bind_eq_bind,
        Option.some_bind, Concept.addRelationship]
      rw [JsMap.get_set_self]
      simp only [Option.some_bind]
      rw [JsMap.get_set_self]
      rfl
    · simp only [Model.edgeStrength, Model.getConcept, hconc, h2, Option.bind_eq_bind,
        Option.some_bind, Concept.addRelationship]
      rw [JsMap.get_set_self]
      simp only [Option.some_bind]
      rw [JsMap.get_set_self]
      rfl

/-- C5 witness: a concrete mirrored pair on distinct concepts. -/
theorem c5_relationship_mirroring_witness :
    (dogCatModel.addRelationship "dog" "is-a" "cat" 1 0).edgeStrength "dog"
      (RelKey.str "is-a") "cat" = some 1 ∧
    (dogCatModel.addRelationship "dog" "is-a" "cat" 1 0).edgeStrength "cat"
      (reverseTypeOf (RelKey.str "is-a")) "dog" = some (1 * (8/10)) :=
  c5_relationship_mirroring dogCatModel "dog" "is-a" "cat" 1 0
    (by decide) (by decide) (by decide) (Or.inl (by decide))

/-! ## C6: working-memory capacity and eviction -/

/-- The eviction scan, from an accumulator that already holds the
lexicographic minimum of the entries seen so far, lands on the
lexicographic minimum of everything seen. -/
theorem evictFold_go (l : List (String × ℚ × ℕ)) :
    ∀ (a : ℚ) (t : ℕ) (k : String),
      ∃ a' t' k',
        l.foldl
          (fun (acc : Option ℚ × Option ℕ × Option String) e =>
            if ltOptQ e.2.1 acc.1 || (eqOptQ e.2.1 acc.1 && ltOptN e.2.2 acc.2.1) then
              (some e.2.1, some e.2.2, some e.1)
            else acc)
          (some a, some t, some k)
          = (some a', some t', some k') ∧
        ((a', t', k') = (a, t, k) ∨ (k', a', t') ∈ l) ∧
        (a' < a ∨ (a' = a ∧ t' ≤ t)) ∧
        ∀ e ∈ l, lexLE a' t' e := by
  induction l with
  | nil =>
    intro a t k
    exact ⟨a, t, k, rfl, Or.inl rfl, Or.inr ⟨rfl, le_refl t⟩, by simp⟩
  | cons e l' ih =>
    intro a t k
    simp only [List.foldl_cons]
    split
    next hc =>
      -- the accumulator is replaced by `e`
      simp only [ltOptQ, eqOptQ, ltOptN, Bool.or_eq_true, Bool.and_eq_true,
        decide_eq_true_eq] at hc
      obtain ⟨a', t', k', hfold, hmem, hdec, hall⟩ := ih e.2.1 e.2.2 e.1
      refine ⟨a', t', k', hfold, ?_, ?_, ?_⟩
      · rcases hmem with h | h
        · have ha := (Prod.ext_iff.mp h).1
          have h2 := (Prod.ext_iff.mp h).2
          have ht := (Prod.ext_iff.mp h2).1
          have hk := (Prod.ext_iff.mp h2).2
          subst ha; subst ht; subst hk
          exact Or.inr (List.mem_cons_self _ _)
        · exact Or.inr (List.mem_cons_of_mem _ h)
      · rcases hdec with hd | ⟨hd1, hd2⟩ <;> rcases hc with hs | ⟨hs1, hs2⟩
        · exact Or.inl (hd.trans hs)
        · exact Or.inl (lt_of_lt_of_le hd (le_of_eq hs1))
        · exact Or.inl (lt_of_le_of_lt (le_of_eq hd1) hs)
        · exact Or.inr ⟨hd1.trans hs1, hd2.trans hs2.le⟩
      · intro x hx
        rcases List.mem_cons.mp hx with rfl | hx'
        · exact hdec
        · exact hall x hx'
    next hc =>
      -- the accumulator is kept: `e` is not lexicographically smaller
      rw [Bool.not_eq_true] at hc
      simp only [ltOptQ, eqOptQ, ltOptN, Bool.or_eq_false_iff, Bool.and_eq_false_iff,
        decide_eq_false_iff_not] at hc
      obtain ⟨a', t', k', hfold, hmem, hdec, hall⟩ := ih a t k
      refine ⟨a', t', k', hfold, ?_, hdec, ?_⟩
      · rcases hmem with h | h
        · exact Or.inl h
        · exact Or.inr (List.mem_cons_of_mem _ h)
      · intro x hx
        rcases List.mem_cons.mp hx with rfl | hx'
        · have hae : a ≤ x.2.1 := le_of_not_lt hc.1
          rcases hdec with hd | ⟨hd1, hd2⟩
          · exact Or.inl (lt_of_lt_of_le hd hae)
          · rcases lt_or_eq_of_le hae with hlt | heq
            · exact Or.inl (lt_of_le_of_lt (le_of_eq hd1) hlt)
            · rcases hc.2 with hne | hnt
              · exact absurd heq.symm hne
              · exact Or.inr ⟨hd1.trans heq, hd2.trans (le_of_not_lt hnt)⟩
        · exact hall x hx'

/-- The first entry always replaces the `Infinity`-initialised
accumulator of the eviction scan. -/
theorem findEvict_cons (e : String × ℚ × ℕ) (rest : List (String × ℚ × ℕ)) :
    WorkingMemory.findEvict (e :: rest)
      = (rest.foldl
          (fun (acc : Option ℚ × Option ℕ × Option String) e =>
            if ltOptQ e.2.1 acc.1 || (eqOptQ e.2.1 acc.1 && ltOptN e.2.2 acc.2.1) then
              (some e.2.1, some e.2.2, some e.1)
            else acc)
          (some e.2.1, some e.2.2, some e.1)).2.2 := rfl

/-- The eviction scan of a nonempty entry list finds the id of a
lexicographically minimal entry. -/
theorem findEvict_spec (entries : List (String × ℚ × ℕ)) (hne : entries ≠ []) :
    ∃ k, WorkingMemory.findEvict entries = some k ∧ isLexMinEntry entries k := by
  cases entries with
  | nil => exact absurd rfl hne
  | cons e rest =>
    obtain ⟨a', t', k', hfold, hmem, hdec, hall⟩ := evictFold_go rest e.2.1 e.2.2 e.1
    refine ⟨k', ?_, a', t', ?_, ?_⟩
    · rw [findEvict_cons, hfold]
    · rcases hmem with h | h
      · have ha := (Prod.ext_iff.mp h).1
        have h2 := (Prod.ext_iff.mp h).2
        have ht := (Prod.ext_iff.mp h2).1
        have hk := (Prod.ext_iff.mp h2).2
        subst ha; subst ht; subst hk
        exact List.mem_cons_self _ _
      · exact List.mem_cons_of_mem _ h
    · intro x hx
      rcases List.mem_cons.mp hx with rfl | hx'
      · exact hdec
      · exact hall x hx'

/-- `WorkingMemory.addConcept` never changes the capacity. -/
theorem addConcept_capacity (wm : WorkingMemory) (id : String) (a : ℚ) (now : ℕ) :
    (wm.addConcept id a now).capacity = wm.capacity := by
  unfold WorkingMemory.addConcept
  split
  · rfl
  · rfl

/-- An insertion with a non-empty id on a memory whose keys are all
non-empty keeps every key non-empty. -/
theorem addConcept_keys_ne (wm : WorkingMemory) (id : String) (a : ℚ) (now : ℕ)
    (hid : id ≠ "") (hall : ∀ p ∈ wm.concepts, p.1 ≠ "") :
    ∀ p ∈ (wm.addConcept id a now).concepts, p.1 ≠ "" := by
  unfold WorkingMemory.addConcept
  split
  · intro p hp
    rcases JsMap.mem_set hp with rfl | hp'
    · exact hid
    · exact hall p hp'
  · intro p hp
    rcases JsMap.mem_set hp with rfl | hp'
    · exact hid
    · -- the entry survived the (possible) eviction, so it was there before
      have hp2 : p ∈ wm.concepts := by
        revert hp'
        split
      -- at-capacity branch: the eviction scan
        · split
          · split
            · exact fun h => h
            · exact fun h => JsMap.mem_eraseKey h
          · exact fun h => h
        · exact fun h => h
      exact hall p hp2

/-- One insertion of a non-empty id preserves `size ≤ capacity` (for
positive capacity), as long as every stored key is non-empty — an
empty-string key chosen for eviction is skipped by the truthiness test
and would break the bound. -/
theorem addConcept_length_le (wm : WorkingMemory) (id : String) (a : ℚ) (now : ℕ)
    (hC : 1 ≤ wm.capacity) (hlen : wm.concepts.length ≤ wm.capacity)
    (hall : ∀ p ∈ wm.concepts, p.1 ≠ "") :
    (wm.addConcept id a now).concepts.length ≤ wm.capacity := by
  unfold WorkingMemory.addConcept
  cases hk : JsMap.hasKey wm.concepts id with
  | true =>
    simp only [hk, if_true]
    rw [JsMap.length_set]
    simp only [hk, if_true]
    exact hlen
  | false =>
    simp only [hk, Bool.false_eq_true, if_false]
    by_cases hcap : wm.capacity ≤ wm.concepts.length
    · have hlen' : wm.concepts.length = wm.capacity := le_antisymm hlen hcap
      have hne : wm.concepts ≠ [] := by
        intro h0
        rw [h0] at hlen'
        simp at hlen'
        omega
      obtain ⟨k, hk2, a0, t0, hmem, _⟩ := findEvict_spec _ hne
      have hkne : k ≠ "" := hall (k, a0, t0) hmem
      simp only [hcap, if_true, hk2]
      rw [if_neg hkne]
      rw [JsMap.set_eq_append _ (JsMap.hasKey_eraseKey_false hk)]
      have hlen2 := JsMap.length_eraseKey_of_mem hmem
      simp only [List.length_append, List.length_cons, List.length_nil]
      omega
    · simp only [hcap, if_false]
      rw [JsMap.set_eq_append _ hk]
      simp only [List.length_append, List.length_cons, List.length_nil]
      omega

/-- C6 counterexample: with capacity 1, inserting the empty-string id
and then a second id leaves 2 entries.  The scan picks `oldestId = ""`,
but `if (oldestId)` is a truthiness test and the empty string is falsy,
so the eviction is skipped and the capacity bound is broken. -/
theorem c6_counterexample :
    ((insertSeq ⟨1, []⟩ [("", 0, 0), ("a", 0, 1)]).concepts.length ≤ 1) = False :=
  eq_false (by decide)

/-- C6 (amended): (1) starting from an empty working memory of positive
capacity `C`, any sequence of insertions of non-empty ids leaves at
most `C` entries (an empty-string id can break the bound: when the scan
picks it for eviction, the code's `if (oldestId)` truthiness test skips
the eviction); (2) when a new id is inserted at capacity into a memory
whose keys are all non-empty, the scan picks the id of an entry with
the lowest activation (ties broken by the oldest timestamp), exactly
that entry is removed, and the new entry is appended. -/
theorem c6_working_memory :
    (∀ (C : ℕ) (inserts : List (String × ℚ × ℕ)), 1 ≤ C →
      (∀ e ∈ inserts, e.1 ≠ "") →
      (insertSeq ⟨C, []⟩ inserts).concepts.length ≤ C) ∧
    (∀ (wm : WorkingMemory) (id : String) (a : ℚ) (now : ℕ),
      wm.concepts.length = wm.capacity → 1 ≤ wm.capacity →
      (∀ p ∈ wm.concepts, p.1 ≠ "") →
      JsMap.hasKey wm.concepts id = false →
      ∃ k, WorkingMemory.findEvict wm.concepts = some k ∧ isLexMinEntry wm.concepts k ∧
        (wm.addConcept id a now).concepts
          = JsMap.eraseKey wm.concepts k ++ [(id, a, now)]) := by
  constructor
  · intro C inserts hC hids
    suffices h : ∀ (wm : WorkingMemory), wm.capacity = C → wm.concepts.length ≤ C →
        (∀ p ∈ wm.concepts, p.1 ≠ "") →
        (insertSeq wm inserts).concepts.length ≤ C by
      exact h ⟨C, []⟩ rfl (by simp) (by simp)
    induction inserts with
    | nil =>
      intro wm hcap hlen _
      simpa [insertSeq] using hlen
    | cons e rest ih =>
      intro wm hcap hlen hall
      have hstep : insertSeq wm (e :: rest) = insertSeq (wm.addConcept e.1 e.2.1 e.2.2) rest := rfl
      rw [hstep]
      have he : e.1 ≠ "" := hids e (List.mem_cons_self _ _)
      apply ih (fun x hx => hids x (List.mem_cons_of_mem _ hx))
      · rw [addConcept_capacity]
        exact hcap
      · rw [← hcap]
        exact addConcept_length_le wm e.1 e.2.1 e.2.2 (hcap ▸ hC) (hcap ▸ hlen) hall
      · exact addConcept_keys_ne wm e.1 e.2.1 e.2.2 he hall
  · intro wm id a now hlen hC hall hk
    have hne : wm.concepts ≠ [] := by
      intro h0
      rw [h0] at hlen
      simp at hlen
      omega
    obtain ⟨k, hk2, hmin⟩ := findEvict_spec _ hne
    obtain ⟨a0, t0, hmem, hminall⟩ := hmin
    have hkne : k ≠ "" := hall (k, a0, t0) hmem
    refine ⟨k, hk2, ⟨a0, t0, hmem, hminall⟩, ?_⟩
    unfold WorkingMemory.addConcept
    simp only [hk, Bool.false_eq_true, if_false, le_of_eq hlen.symm, if_true, hk2]
    rw [if_neg hkne]
    exact JsMap.set_eq_append _ (JsMap.hasKey_eraseKey_false hk)

/-- C6 witness: capacity invariant on a concrete three-insert sequence,
and the concrete eviction of the lowest-activation entry at capacity. -/
theorem c6_working_memory_witness :
    (insertSeq ⟨2, []⟩ [("a", 1, 0), ("b", 1/2, 1), ("c", 3/4, 2)]).concepts.length ≤ 2 ∧
    (∃ k, WorkingMemory.findEvict wmA.concepts = some k ∧ isLexMinEntry wmA.concepts k ∧
      (wmA.addConcept "c" 1 9).concepts = JsMap.eraseKey wmA.concepts k ++ [("c", 1, 9)]) :=
  ⟨c6_working_memory.1 2 [("a", 1, 0), ("b", 1/2, 1), ("c", 3/4, 2)] (by norm_num) (by decide),
   c6_working_memory.2 wmA "c" 1 9 (by decide) (by decide) (by decide) (by decide)⟩

/-! ## C7: learning bounds -/

theorem strengthsInRange_modifyConcept {m : Model} {id : String} {f : Concept → Concept}
    (h : strengthsInRange m) (hf : ∀ c, conceptStrengthsOK c → conceptStrengthsOK (f c)) :
    strengthsInRange (m.modifyConcept id f) := by
  intro p hp
  rcases JsMap.mem_modify hp with hp' | ⟨v, hv, rfl⟩
  · exact h p hp'
  · exact hf v (h (id, v) (JsMap.get_mem hv))

theorem weightsFloored_modifyConcept {m : Model} {id : String} {f : Concept → Concept}
    (h : weightsFloored m) (hf : ∀ c, 1/2 ≤ c.weight → 1/2 ≤ (f c).weight) :
    weightsFloored (m.modifyConcept id f) := by
  intro p hp
  rcases JsMap.mem_modify hp with hp' | ⟨v, hv, rfl⟩
  · exact h p hp'
  · exact hf v (h (id, v) (JsMap.get_mem hv))

theorem conceptStrengthsOK_learnStrengthUpdate {c : Concept} {rt tid : String}
    {dlt : ℚ} {now : ℕ} (hc : conceptStrengthsOK c) :
    conceptStrengthsOK (learnStrengthUpdate rt tid dlt now c) := by
  unfold learnStrengthUpdate
  split
  · exact hc
  next em hem =>
    split
    · exact hc
    next e he =>
      intro q hq
      rcases JsMap.mem_set hq with rfl | hq'
      · intro r hr
        rcases JsMap.mem_set hr with rfl | hr'
        · exact ⟨le_max_left _ _, max_le (by norm_num) (min_le_left _ _)⟩
        · exact hc (RelKey.str rt, em) (JsMap.get_mem hem) r hr'
      · exact hc q hq'

theorem weight_learnStrengthUpdate (c : Concept) (rt tid : String) (dlt : ℚ) (now : ℕ) :
    (learnStrengthUpdate rt tid dlt now c).weight = c.weight := by
  unfold learnStrengthUpdate
  split
  · rfl
  · split
    · rfl
    · rfl

theorem strengthsInRange_wmRefresh {m : Model} (df : ℕ → ℚ) (now : ℕ) (id : String)
    (h : strengthsInRange m) : strengthsInRange (wmRefresh df now id m) := by
  unfold wmRefresh
  split
  · exact h
  · exact h

theorem weightsFloored_wmRefresh {m : Model} (df : ℕ → ℚ) (now : ℕ) (id : String)
    (h : weightsFloored m) : weightsFloored (wmRefresh df now id m) := by
  unfold wmRefresh
  split
  · exact h
  · exact h

/-- One `learn` call preserves the edge-strength range and the weight
floor: every touched edge is clamped into `[0.1, 2.0]` and every touched
weight is floored at `0.5`; untouched values are unchanged. -/
theorem learn_preserves (m : Model) (df : ℕ → ℚ) (now : ℕ) (exp : Experience) (r : ℚ)
    (hs : strengthsInRange m) (hw : weightsFloored m) :
    strengthsInRange (m.learn df now exp r) ∧ weightsFloored (m.learn df now exp r) := by
  unfold Model.learn
  split
  · refine ⟨strengthsInRange_wmRefresh df now exp.target
        (strengthsInRange_wmRefresh df now exp.source ?_),
      weightsFloored_wmRefresh df now exp.target
        (weightsFloored_wmRefresh df now exp.source ?_)⟩
    · exact strengthsInRange_modifyConcept
        (strengthsInRange_modifyConcept
          (strengthsInRange_modifyConcept
            (strengthsInRange_modifyConcept
              (strengthsInRange_modifyConcept hs
                (fun c hc => conceptStrengthsOK_learnStrengthUpdate hc))
              (fun c hc => hc))
            (fun c hc => hc))
          (fun c hc => hc))
        (fun c hc => hc)
    · exact weightsFloored_modifyConcept
        (weightsFloored_modifyConcept
          (weightsFloored_modifyConcept
            (weightsFloored_modifyConcept
              (weightsFloored_modifyConcept hw
                (fun c hc => by rw [weight_learnStrengthUpdate]; exact hc))
              (fun c _ => le_max_left _ _))
            (fun c _ => le_max_left _ _))
          (fun c hc => hc))
        (fun c hc => hc)
  · exact ⟨hs, hw⟩

/-- C7: for every sequence of `learn` calls (any outcomes, any
reinforcements — in particular arbitrarily many failures), starting from
a state whose edge strengths all lie in `[0.1, 2.0]` and whose weights
are all at least `0.5`, every edge strength stays in `[0.1, 2.0]` and
every concept weight stays at or above `0.5`. -/
theorem c7_learning_bounds (df : ℕ → ℚ) (m : Model)
    (steps : List (Experience × ℚ × ℕ))
    (hs : strengthsInRange m) (hw : weightsFloored m) :
    strengthsInRange (learnSeq m df steps) ∧ weightsFloored (learnSeq m df steps) := by
  induction steps generalizing m with
  | nil => exact ⟨hs, hw⟩
  | cons s rest ih =>
    have hstep : learnSeq m df (s :: rest) = learnSeq (m.learn df s.2.2 s.1 s.2.1) df rest := rfl
    rw [hstep]
    obtain ⟨hs', hw'⟩ := learn_preserves m df s.2.2 s.1 s.2.1 hs hw
    exact ih (m.learn df s.2.2 s.1 s.2.1) hs' hw'

/-- C7 witness: one failed-outcome `learn` on the dog/cat engine keeps
the bounds. -/
theorem c7_learning_bounds_witness :
    strengthsInRange (learnSeq dogCatModel df1
      [(⟨"dog", "cat", "similar-to", false⟩, 1, 0)]) ∧
    weightsFloored (learnSeq dogCatModel df1
      [(⟨"dog", "cat", "similar-to", false⟩, 1, 0)]) :=
  c7_learning_bounds df1 dogCatModel [(⟨"dog", "cat", "similar-to", false⟩, 1, 0)]
    (by unfold strengthsInRange conceptStrengthsOK; decide)
    (by unfold weightsFloored; decide)

/-! ## C8: spreading-activation termination and enqueue-depth bound -/

theorem queueMeasure_append (B maxDepth : ℕ) (l1 l2 : List QueueEntry) :
    queueMeasure B maxDepth (l1 ++ l2)
      = queueMeasure B maxDepth l1 + queueMeasure B maxDepth l2 := by
  simp [queueMeasure]

theorem queueMeasure_cons (B maxDepth : ℕ) (q : QueueEntry) (l : List QueueEntry) :
    queueMeasure B maxDepth (q :: l)
      = (B + 1) ^ (maxDepth - q.depth) + queueMeasure B maxDepth l := by
  simp [queueMeasure]

/-- Each edge-processing step either leaves the accumulator unchanged,
or mutates the state without enqueueing, or enqueues exactly one entry
at depth `cur.depth + 1` under the guard `cur.depth + 1 < maxDepth`; in
every case the edge structure of the concepts is untouched. -/
theorem spreadEdge_cases (df : ℕ → ℚ) (now maxDepth : ℕ) (decay : ℚ)
    (cur : QueueEntry) (acc : SpreadState × List QueueEntry)
    (e : RelKey × String × RelationInfo) :
    spreadEdge df now maxDepth decay cur acc e = acc ∨
    (∃ st2, spreadEdge df now maxDepth decay cur acc e = (st2, acc.2) ∧
      conceptsShape st2.model = conceptsShape acc.1.model ∧ st2.trace = acc.1.trace) ∨
    (∃ st2 q, spreadEdge df now maxDepth decay cur acc e = (st2, acc.2 ++ [q]) ∧
      conceptsShape st2.model = conceptsShape acc.1.model ∧
      st2.trace = acc.1.trace ++ [(q.id, q.depth)] ∧
      q.depth = cur.depth + 1 ∧ cur.depth + 1 < maxDepth) := by
  simp only [spreadEdge]
  split
  · split
    · split
      · exact Or.inl rfl
      next target hg =>
        split
        next hlt =>
          refine Or.inr (Or.inr ⟨_, _, rfl, ?_, rfl, rfl, hlt⟩)
          simp only [conceptsShape, Model.modifyConcept]
          exact JsMap.modify_shape _ _ hg rfl
        next hlt =>
          refine Or.inr (Or.inl ⟨_, rfl, ?_, rfl⟩)
          simp only [conceptsShape, Model.modifyConcept]
          exact JsMap.modify_shape _ _ hg rfl
    · exact Or.inl rfl
  · exact Or.inl rfl

/-- The fold over a dequeued concept's edges: the edge structure is
preserved, at most one entry is enqueued per edge, every enqueued entry
sits at depth `cur.depth + 1` strictly below `maxDepth`, and every trace
entry is either old or below `maxDepth`. -/
theorem spreadEdges_fold_spec (df : ℕ → ℚ) (now maxDepth : ℕ) (decay : ℚ)
    (cur : QueueEntry) :
    ∀ (edges : List (RelKey × String × RelationInfo)) (acc : SpreadState × List QueueEntry),
      conceptsShape (edges.foldl (spreadEdge df now maxDepth decay cur) acc).1.model
        = conceptsShape acc.1.model ∧
      (edges.foldl (spreadEdge df now maxDepth decay cur) acc).2.length
        ≤ acc.2.length + edges.length ∧
      (∀ q ∈ (edges.foldl (spreadEdge df now maxDepth decay cur) acc).2,
        q ∈ acc.2 ∨ (q.depth = cur.depth + 1 ∧ cur.depth + 1 < maxDepth)) ∧
      (∀ p ∈ (edges.foldl (spreadEdge df now maxDepth decay cur) acc).1.trace,
        p ∈ acc.1.trace ∨ p.2 < maxDepth) := by
  intro edges
  induction edges with
  | nil =>
    intro acc
    exact ⟨rfl, by simp, fun q hq => Or.inl hq, fun p hp => Or.inl hp⟩
  | cons e rest ih =>
    intro acc
    simp only [List.foldl_cons]
    rcases spreadEdge_cases df now maxDepth decay cur acc e with heq | ⟨st2, heq, hsh, htr⟩ |
      ⟨st2, q0, heq, hsh, htr, hqd, hql⟩
    · rw [heq]
      obtain ⟨ihShape, ihLen, ihMem, ihTr⟩ := ih acc
      refine ⟨ihShape, ?_, ihMem, ihTr⟩
      simp only [List.length_cons]
      omega
    · rw [heq]
      obtain ⟨ihShape, ihLen, ihMem, ihTr⟩ := ih (st2, acc.2)
      have ihShape' : conceptsShape
          (List.foldl (spreadEdge df now maxDepth decay cur) (st2, acc.2) rest).1.model
          = conceptsShape st2.model := ihShape
      have ihLen' : (List.foldl (spreadEdge df now maxDepth decay cur) (st2, acc.2) rest).2.length
          ≤ acc.2.length + rest.length := ihLen
      have ihMem' : ∀ q ∈ (List.foldl (spreadEdge df now maxDepth decay cur) (st2, acc.2) rest).2,
          q ∈ acc.2 ∨ (q.depth = cur.depth + 1 ∧ cur.depth + 1 < maxDepth) := ihMem
      have ihTr' : ∀ p ∈
          (List.foldl (spreadEdge df now maxDepth decay cur) (st2, acc.2) rest).1.trace,
          p ∈ st2.trace ∨ p.2 < maxDepth := ihTr
      refine ⟨ihShape'.trans hsh, ?_, ihMem', ?_⟩
      · simp only [List.length_cons]
        omega
      · intro p hp
        rcases ihTr' p hp with h | h
        · rw [htr] at h
          exact Or.inl h
        · exact Or.inr h
    · rw [heq]
      obtain ⟨ihShape, ihLen, ihMem, ihTr⟩ := ih (st2, acc.2 ++ [q0])
      have ihShape' : conceptsShape
          (List.foldl (spreadEdge df now maxDepth decay cur) (st2, acc.2 ++ [q0]) rest).1.model
          = conceptsShape st2.model := ihShape
      have ihLen' : (List.foldl (spreadEdge df now maxDepth decay cur)
          (st2, acc.2 ++ [q0]) rest).2.length ≤ (acc.2 ++ [q0]).length + rest.length := ihLen
      have ihMem' : ∀ q ∈
          (List.foldl (spreadEdge df now maxDepth decay cur) (st2, acc.2 ++ [q0]) rest).2,
          q ∈ acc.2 ++ [q0] ∨ (q.depth = cur.depth + 1 ∧ cur.depth + 1 < maxDepth) := ihMem
      have ihTr' : ∀ p ∈
          (List.foldl (spreadEdge df now maxDepth decay cur) (st2, acc.2 ++ [q0]) rest).1.trace,
          p ∈ st2.trace ∨ p.2 < maxDepth := ihTr
      refine ⟨ihShape'.trans hsh, ?_, ?_, ?_⟩
      · simp only [List.length_append, List.length_cons, List.length_nil] at ihLen' ⊢
        omega
      · intro q hq
        rcases ihMem' q hq with h | h
        · rcases List.mem_append.mp h with h' | h'
          · exact Or.inl h'
          · simp only [List.mem_singleton] at h'
            subst h'
            exact Or.inr ⟨hqd, hql⟩
        · exact Or.inr h
      · intro p hp
        rcases ihTr' p hp with h | h
        · rw [htr] at h
          rcases List.mem_append.mp h with h' | h'
          · exact Or.inl h'
          · simp only [List.mem_singleton] at h'
            subst h'
            rw [hqd]
            exact Or.inr hql
        · exact Or.inr h

/-- `spreadStep` preserves the edge structure, enqueues at most as many
entries as the dequeued concept has edges (all at guarded depth
`cur.depth + 1`), and only appends below-`maxDepth` entries to the
trace. -/
theorem spreadStep_spec (df : ℕ → ℚ) (now maxDepth : ℕ) (decay : ℚ)
    (cur : QueueEntry) (st : SpreadState) :
    conceptsShape (spreadStep df now maxDepth decay cur st).1.model
      = conceptsShape st.model ∧
    (∀ B, (∀ p ∈ conceptsShape st.model, p.2.length ≤ B) →
      (spreadStep df now maxDepth decay cur st).2.length ≤ B) ∧
    (∀ q ∈ (spreadStep df now maxDepth decay cur st).2,
      q.depth = cur.depth + 1 ∧ cur.depth + 1 < maxDepth) ∧
    (∀ p ∈ (spreadStep df now maxDepth decay cur st).1.trace,
      p ∈ st.trace ∨ p.2 < maxDepth) := by
  unfold spreadStep
  split
  · exact ⟨rfl, fun B _ => Nat.zero_le B, fun q hq => absurd hq (List.not_mem_nil q),
      fun p hp => Or.inl hp⟩
  next c hg =>
    obtain ⟨hShape, hLen, hMem, hTr⟩ :=
      spreadEdges_fold_spec df now maxDepth decay cur c.flatRels (st, [])
    refine ⟨hShape, ?_, ?_, hTr⟩
    · intro B hB
      have hcB : c.flatRels.length ≤ B :=
        hB (cur.id, c.flatRels) (List.mem_map_of_mem _ (JsMap.get_mem hg))
      simpa using le_trans hLen (by simpa using hcB)
    · intro q hq
      rcases hMem q hq with h | h
      · exact absurd h (List.not_mem_nil q)
      · exact h

/-- The dequeue measure strictly decreases: the enqueued entries of one
step weigh less than the dequeued entry. -/
theorem measure_le_of_adds (B maxDepth : ℕ) (cur : QueueEntry)
    (adds : List QueueEntry) (hlen : adds.length ≤ B)
    (hq : ∀ q ∈ adds, q.depth = cur.depth + 1 ∧ cur.depth + 1 < maxDepth) :
    queueMeasure B maxDepth adds + 1 ≤ (B + 1) ^ (maxDepth - cur.depth) := by
  have hpos : ∀ k : ℕ, 1 ≤ (B + 1) ^ k := fun k => Nat.one_le_pow k (B + 1) (by omega)
  cases adds with
  | nil =>
    simp only [queueMeasure, List.map_nil, List.sum_nil, Nat.zero_add]
    exact hpos _
  | cons q0 rest =>
    have hlt : cur.depth + 1 < maxDepth := (hq q0 (List.mem_cons_self _ _)).2
    have hk : maxDepth - cur.depth = (maxDepth - (cur.depth + 1)) + 1 := by omega
    have hterm : ∀ y ∈ (q0 :: rest).map (fun e => (B + 1) ^ (maxDepth - e.depth)),
        y ≤ (B + 1) ^ (maxDepth - (cur.depth + 1)) := by
      intro y hy
      obtain ⟨q, hqm, rfl⟩ := List.mem_map.mp hy
      rw [(hq q hqm).1]
    have hsum : queueMeasure B maxDepth (q0 :: rest)
        ≤ (q0 :: rest).length * (B + 1) ^ (maxDepth - (cur.depth + 1)) := by
      have := List.sum_le_card_nsmul _ _ hterm
      simpa [queueMeasure, smul_eq_mul] using this
    have hlenB : (q0 :: rest).length ≤ B := hlen
    have hX := hpos (maxDepth - (cur.depth + 1))
    calc queueMeasure B maxDepth (q0 :: rest) + 1
        ≤ (q0 :: rest).length * (B + 1) ^ (maxDepth - (cur.depth + 1)) + 1 := by omega
      _ ≤ B * (B + 1) ^ (maxDepth - (cur.depth + 1)) + (B + 1) ^ (maxDepth - (cur.depth + 1)) := by
          have := Nat.mul_le_mul_right ((B + 1) ^ (maxDepth - (cur.depth + 1))) hlenB
          omega
      _ = (B + 1) ^ ((maxDepth - (cur.depth + 1)) + 1) := by ring
      _ = (B + 1) ^ (maxDepth - cur.depth) := by rw [← hk]

theorem spreadLoop_cons (df : ℕ → ℚ) (now maxDepth : ℕ) (decay : ℚ) (fuel : ℕ)
    (st : SpreadState) (cur : QueueEntry) (rest : List QueueEntry) :
    spreadLoop df now maxDepth decay (fuel + 1) st (cur :: rest)
      = spreadLoop df now maxDepth decay fuel (spreadStep df now maxDepth decay cur st).1
          (rest ++ (spreadStep df now maxDepth decay cur st).2) := rfl

/-- The spreading loop drains its queue before the fuel runs out,
whenever the fuel dominates the queue measure. -/
theorem spreadLoop_isSome (df : ℕ → ℚ) (now maxDepth : ℕ) (decay : ℚ) (B : ℕ) :
    ∀ (fuel : ℕ) (st : SpreadState) (queue : List QueueEntry),
      (∀ p ∈ conceptsShape st.model, p.2.length ≤ B) →
      queueMeasure B maxDepth queue ≤ fuel →
      (spreadLoop df now maxDepth decay fuel st queue).isSome = true := by
  intro fuel
  induction fuel with
  | zero =>
    intro st queue hB hm
    cases queue with
    | nil => rfl
    | cons cur rest =>
      exfalso
      rw [queueMeasure_cons] at hm
      have := Nat.one_le_pow (maxDepth - cur.depth) (B + 1) (by omega)
      omega
  | succ fuel ih =>
    intro st queue hB hm
    cases queue with
    | nil => rfl
    | cons cur rest =>
      rw [spreadLoop_cons]
      obtain ⟨hShape, hLen, hMem, _⟩ := spreadStep_spec df now maxDepth decay cur st
      apply ih
      · rw [hShape]
        exact hB
      · rw [queueMeasure_append]
        have hmeas := measure_le_of_adds B maxDepth cur
          (spreadStep df now maxDepth decay cur st).2 (hLen B hB) hMem
        rw [queueMeasure_cons] at hm
        omega

/-- Along a successful run, the loop only ever appends below-`maxDepth`
entries to the trace. -/
theorem spreadLoop_trace (df : ℕ → ℚ) (now maxDepth : ℕ) (decay : ℚ) :
    ∀ (fuel : ℕ) (st : SpreadState) (queue : List QueueEntry) (st' : SpreadState),
      spreadLoop df now maxDepth decay fuel st queue = some st' →
      (∀ p ∈ st.trace, p.2 < maxDepth) →
      (∀ p ∈ st'.trace, p.2 < maxDepth) := by
  intro fuel
  induction fuel with
  | zero =>
    intro st queue st' heq htr
    cases queue with
    | nil =>
      obtain rfl : st = st' := Option.some.inj heq
      exact htr
    | cons cur rest => simp [spreadLoop] at heq
  | succ fuel ih =>
    intro st queue st' heq htr
    cases queue with
    | nil =>
      obtain rfl : st = st' := Option.some.inj heq
      exact htr
    | cons cur rest =>
      rw [spreadLoop_cons] at heq
      refine ih _ _ _ heq ?_
      intro p hp
      rcases (spreadStep_spec df now maxDepth decay cur st).2.2.2 p hp with h | h
      · exact htr p h
      · exact h

/-- Every concept's edge count is at most the engine's total edge
count. -/
theorem shape_length_le_totalEdges (m : Model) :
    ∀ p ∈ conceptsShape m, p.2.length ≤ m.totalEdges := by
  intro p hp
  obtain ⟨q, hq, rfl⟩ := List.mem_map.mp hp
  unfold Model.totalEdges
  exact List.single_le_sum (fun x _ => Nat.zero_le x) _ (List.mem_map_of_mem _ hq)

/-- C8 counterexample: with `maxDepth = 0` the source itself is still
pushed on the queue at depth `0 = maxDepth`, so the trace is not
entirely below `maxDepth`. -/
theorem c8_counterexample :
    ((soloModel.spreadTrace df1 0 "x" (8/10) 0 (1/2)).all
      (fun e => decide (e.2 < 0))) = false := by decide

/-- C8 (amended): `spreadActivation` terminates on every engine state
and every finite `maxDepth` (the chosen fuel `(totalEdges + 1)^maxDepth`
always drains the queue), and for every `maxDepth ≥ 1` every entry ever
pushed on the queue — the source at depth 0 and the guarded pushes at
`depth + 1 < maxDepth` — sits at a depth strictly below `maxDepth`.  For
`maxDepth = 0` the unconditional source push itself violates the bound. -/
theorem c8_spread_termination (m : Model) (df : ℕ → ℚ) (now : ℕ) (sourceId : String)
    (ia : ℚ) (maxDepth : ℕ) (decay : ℚ) :
    (m.spreadActivation df now sourceId ia maxDepth decay).isSome = true ∧
    (1 ≤ maxDepth →
      ((m.spreadTrace df now sourceId ia maxDepth decay).all
        (fun e => decide (e.2 < maxDepth))) = true) := by
  constructor
  · unfold Model.spreadActivation
    split
    · rfl
    next source hg =>
      apply spreadLoop_isSome
      · exact shape_length_le_totalEdges _
      · rw [queueMeasure_cons]
        simp [queueMeasure]
  · intro hmd
    unfold Model.spreadTrace
    cases heq : m.spreadActivation df now sourceId ia maxDepth decay with
    | none => rfl
    | some st' =>
      rw [List.all_eq_true]
      intro e he
      rw [decide_eq_true_eq]
      revert he
      revert e
      unfold Model.spreadActivation at heq
      split at heq
      · obtain rfl : _ = st' := Option.some.inj heq
        intro e he
        exact absurd he (List.not_mem_nil e)
      next source hg =>
        intro e he
        refine spreadLoop_trace df now maxDepth decay _ _ _ _ heq ?_ e he
        intro p hp
        simp only [List.mem_singleton] at hp
        subst hp
        omega

/-- C8 witness: on the worked example (`maxDepth = 3`), every traced
enqueue sits strictly below depth 3. -/
theorem c8_spread_termination_witness :
    ((exampleModel.spreadTrace df1 0 "dog" (8/10) 3 (1/2)).all
      (fun e => decide (e.2 < 3))) = true :=
  (c8_spread_termination exampleModel df1 0 "dog" (8/10) 3 (1/2)).2 (by norm_num)

end CPM
